import Mathlib

/-!
# Verification of the structural type-inference and interface-synthesis core

This development embeds the type-generation core of the repository
(`src/type-generation/index.ts`, `src/type-generation/get-names.ts`, the
utility module and the interface-synthesis module) as executable Lean
definitions and proves properties of the claims about them.

JavaScript strings that may hold the value `undefined` at runtime are
modelled as `Option String`; template-literal interpolation of such a value
is modelled by `tsStr`.  Functions whose JavaScript originals can throw a
`TypeError` (or that recurse) return `Option`, with `none` standing for a
raised error or exhausted recursion fuel.
-/

set_option maxHeartbeats 1000000
set_option maxRecDepth 100000

namespace ContentstorageCore

/-- A JSON value. `undefined` is not representable, matching JSON. -/
inductive Json where
  | null : Json
  | bool (b : Bool) : Json
  | num (n : Int) : Json
  | str (s : String) : Json
  | arr (elems : List Json) : Json
  | obj (fields : List (String × Json)) : Json
deriving Repr

/-- Interpolation of a possibly-`undefined` JavaScript string into a
template literal: `undefined` prints as the text `undefined`. -/
def tsStr : Option String → String
  | some s => s
  | none => "undefined"

/-- JavaScript `sub.isPrefixOf`-style check on character lists, used to model
`String.prototype.includes`. -/
def charsContains (sub : List Char) : List Char → Bool
  | [] => sub.isEmpty
  | c :: rest => (sub.isPrefixOf (c :: rest)) || charsContains sub rest

/-- Model of JavaScript `s.includes(sub)`. -/
def strIncludes (s sub : String) : Bool :=
  charsContains sub.data s.data

/-- Model of JavaScript `s.endsWith(suffix)`. -/
def strEndsWith (s suffix : String) : Bool :=
  suffix.data.isSuffixOf s.data

/-- Model of JavaScript `s.split(" | ")` restricted to the separator `" | "`:
leftmost, non-overlapping splitting on the three-character separator. -/
def splitPipeChars : List Char → List Char → List (List Char)
  | [], acc => [acc.reverse]
  | ' ' :: '|' :: ' ' :: rest, acc => acc.reverse :: splitPipeChars rest []
  | c :: rest, acc => splitPipeChars rest (c :: acc)

/-- JavaScript `unionTypeName.split(" | ")`. -/
def splitPipe (s : String) : List String :=
  (splitPipeChars s.data []).map (fun cs => String.mk cs)

/-- JavaScript `typeNames.join(" | ")`. -/
def joinPipe : List String → String
  | [] => ""
  | [x] => x
  | x :: y :: rest => x ++ " | " ++ joinPipe (y :: rest)

/-! ## util.ts (`src/unnamed/part_000`) -/

/-- `isHash` from util.ts: a 40-character string is a structural digest. -/
def isHash (str : String) : Bool :=
  str.length == 40

/-- The regex `^\(.*\)\[\]$` of `isNonArrayUnion`: the string is an open
parenthesis, then any characters that are not line terminators, then `)[]`.
JavaScript `.` does not match `\n` or `\r`. -/
def isArrayUnionShape (s : String) : Bool :=
  let d := s.data
  decide (4 ≤ d.length) &&
  (d.take 1 == ['(']) &&
  (d.drop (d.length - 3) == [')', '[', ']']) &&
  !(((d.drop 1).take (d.length - 4)).contains '\n') &&
  !(((d.drop 1).take (d.length - 4)).contains '\r')

/-- `isNonArrayUnion` from util.ts. -/
def isNonArrayUnion (typeName : String) : Bool :=
  strIncludes typeName " | " && !(isArrayUnionShape typeName)

/-- `KeyMetaData` from model.ts. -/
structure KeyMetaData where
  isOptional : Bool
  keyValue : String
deriving Repr, DecidableEq

/-- `parseKeyMetaData` from util.ts: the internal optional-marker sentinel is
the suffix `--?`; `key.slice(0, -3)` drops those three characters. -/
def parseKeyMetaData (key : String) : KeyMetaData :=
  if strEndsWith key "--?" then
    { isOptional := true, keyValue := String.mk (key.data.take (key.data.length - 3)) }
  else
    { isOptional := false, keyValue := key }

/-- `TypeDescription` from model.ts: an object descriptor carries `typeObj`,
an array descriptor carries `arrayOfTypes` (plus the `isUnion` flag). -/
structure TypeDescription where
  id : String
  typeObj : Option (List (String × String)) := none
  arrayOfTypes : Option (List String) := none
  isUnion : Bool := false
deriving Repr, DecidableEq

/-- `TypeGroup` from model.ts. -/
inductive TypeGroup where
  | Primitive
  | Array
  | Object
deriving Repr, DecidableEq

/-- `getTypeDescriptionGroup` from util.ts: an absent descriptor is a
primitive, a descriptor with `arrayOfTypes` is an array, otherwise object. -/
def getTypeDescriptionGroup : Option TypeDescription → TypeGroup
  | none => TypeGroup.Primitive
  | some d => if d.arrayOfTypes.isSome then TypeGroup.Array else TypeGroup.Object

/-- `findTypeById` from util.ts (the JavaScript version returns `undefined`
when absent, modelled as `none`). -/
def findTypeById (id : String) (types : List TypeDescription) : Option TypeDescription :=
  types.find? (fun d => d.id == id)

/-- `NameEntry` from model.ts. The `name` may be the JavaScript value
`undefined` (when the bounded collision search is exhausted). -/
structure NameEntry where
  id : String
  name : Option String
deriving Repr, DecidableEq

/-- `TypeStructure` from model.ts. -/
structure TypeStructure where
  rootTypeId : String
  types : List TypeDescription
deriving Repr, DecidableEq

/-! ## get-interfaces.ts (`src/unnamed/part_001`) -/

/-- `isKeyNameValid`: the regex `^[a-zA-Z_][a-zA-Z\d_]*$`. -/
def isKeyNameValid (keyName : String) : Bool :=
  match keyName.data with
  | [] => false
  | c :: rest =>
    (c.isAlpha || c == '_') && rest.all (fun d => d.isAlpha || d.isDigit || d == '_')

/-- `findNameById`: `names.find(...)` followed by a `.name` access that throws
when the entry is absent (outer `none`); the found name itself may be the
JavaScript value `undefined` (inner `none`). -/
def findNameById (id : String) (names : List NameEntry) : Option (Option String) :=
  (names.find? (fun e => e.id == id)).map (fun e => e.name)

/-- `removeUndefinedFromUnion`: split on `" | "`, find the index of the
member `undefined` (`Array.prototype.indexOf`), and `splice` one element at
that index.  When the member is absent, `indexOf` yields `-1` and
`splice(-1, 1)` removes the last element. -/
def removeUndefinedFromUnion (unionTypeName : String) : String :=
  let typeNames := splitPipe unionTypeName
  match typeNames.findIdx? (fun t => t == "undefined") with
  | some i => joinPipe (typeNames.eraseIdx i)
  | none => joinPipe typeNames.dropLast

/-- First mapping pass of `replaceTypeObjIdsWithNames`: quote the key when it
is not a valid bare identifier and append the `?` marker when the key carried
the optional sentinel. -/
def quoteInvalidAndMarkOptional (kt : String × String) : String × String × Bool :=
  let md := parseKeyMetaData kt.1
  let validName := if isKeyNameValid md.keyValue then md.keyValue
                   else "\x27" ++ md.keyValue ++ "\x27"
  if md.isOptional then (validName ++ "?", kt.2, true) else (validName, kt.2, false)

/-- Second mapping pass of `replaceTypeObjIdsWithNames`: replace a structural
digest with the name recorded for it (outer `none` when no entry exists,
modelling the thrown `TypeError`; the recorded name itself may be
`undefined`). -/
def replaceHashWithName (names : List NameEntry) (ktb : String × String × Bool) :
    Option (String × Option String × Bool) :=
  match ktb with
  | (key, ty, isOptional) =>
    if !(isHash ty) then some (key, some ty, isOptional)
    else (findNameById ty names).map (fun newType => (key, newType, isOptional))

/-- Third mapping pass of `replaceTypeObjIdsWithNames`: when the resolved
type is a non-array union whose text contains `undefined`, remove via
`removeUndefinedFromUnion` and mark the field optional (no second marker when
already optional).  A type that is the JavaScript value `undefined` makes
`isNonArrayUnion` throw (`none`). -/
def stripUndefinedMarkOptional (ktb : String × Option String × Bool) :
    Option (String × String × Bool) :=
  match ktb with
  | (_, none, _) => none
  | (key, some ty, isOptional) =>
    if !(isNonArrayUnion ty && strIncludes ty "undefined") then some (key, ty, isOptional)
    else some ((if isOptional then key else key ++ "?"), removeUndefinedFromUnion ty, isOptional)

/-- Fourth mapping pass of `replaceTypeObjIdsWithNames`: a field whose type
resolved to exactly `undefined` becomes optional of type `any` (no second
marker when already optional). -/
def undefinedToAnyOptional (ktb : String × String × Bool) : String × String × Bool :=
  match ktb with
  | (key, ty, isOptional) =>
    if ty != "undefined" then (key, ty, isOptional)
    else ((if isOptional then key else key ++ "?"), "any", isOptional)

/-- `Array.prototype.map` with a callback that may throw: the first thrown
error propagates (`none`), otherwise the mapped list is returned. -/
def mapFields {α β : Type} (f : α → Option β) : List α → Option (List β)
  | [] => some []
  | x :: xs => (f x).bind (fun y => (mapFields f xs).map (fun ys => y :: ys))

/-- JavaScript object-literal assignment `agg[key] = value` used by the final
`reduce`: assigning an existing key updates it in place, a new key is
appended. -/
def jsObjAssign (agg : List (String × String)) (key v : String) : List (String × String) :=
  if agg.any (fun p => p.1 == key) then
    agg.map (fun p => if p.1 == key then (p.1, v) else p)
  else agg ++ [(key, v)]

/-- The composition of the four mapping passes on one field. -/
def processField (names : List NameEntry) (kt : String × String) :
    Option (String × String × Bool) :=
  ((replaceHashWithName names (quoteInvalidAndMarkOptional kt)).bind
    stripUndefinedMarkOptional).map undefinedToAnyOptional

/-- `replaceTypeObjIdsWithNames`: the four mapping passes over
`Object.entries(typeObj)` followed by the `reduce` that rebuilds the object. -/
def replaceTypeObjIdsWithNames (typeObj : List (String × String)) (names : List NameEntry) :
    Option (List (String × String)) :=
  ((mapFields (replaceHashWithName names) (typeObj.map quoteInvalidAndMarkOptional)).bind
    (fun l2 => mapFields stripUndefinedMarkOptional l2)).map
    (fun l3 => (l3.map undefinedToAnyOptional).foldl
      (fun agg ktb => jsObjAssign agg ktb.1 ktb.2.1) [])

/-- `InterfaceDescription` from model.ts. -/
structure InterfaceDescription where
  name : Option String
  typeMap : List (String × String)
deriving Repr, DecidableEq

/-- `getInterfaceStringFromDescription`: render one interface block. -/
def getInterfaceStringFromDescription (name : Option String)
    (typeMap : List (String × String)) (isRoot : Bool) : String :=
  let stringTypeMap :=
    typeMap.foldl (fun a kv => a ++ "  " ++ kv.1 ++ ": " ++ kv.2 ++ ";\n") ""
  (if isRoot then "export " else "") ++ "interface " ++ tsStr name ++ " \x7b\n"
    ++ stringTypeMap ++ "\x7d"

/-- The per-entry body of `getInterfaceDescriptions`: resolve the entry's
descriptor (a missing descriptor makes the `.typeObj` access throw, modelled
as `none`), keep object descriptors (truthy `typeObj`), return `null` for
array and other descriptors so they are filtered out afterwards. -/
def descriptionOfEntry (typeStructure : TypeStructure) (names : List NameEntry)
    (e : NameEntry) : Option (Option InterfaceDescription) :=
  (findTypeById e.id typeStructure.types).bind (fun td =>
    match td.typeObj with
    | some tObj =>
      (replaceTypeObjIdsWithNames tObj names).map
        (fun tm => some (InterfaceDescription.mk e.name tm))
    | none => some (none : Option InterfaceDescription))

def getInterfaceDescriptions (typeStructure : TypeStructure) (names : List NameEntry) :
    Option (List InterfaceDescription) :=
  (mapFields (descriptionOfEntry typeStructure names) names).map
    (fun descs => descs.filterMap id)

/-! ## get-names.ts (`src/src/type-generation/get-names.ts`) -/

/-- `capitalize`: uppercase the first character. -/
def capitalize (name : String) : String :=
  match name.data with
  | [] => ""
  | c :: cs => String.mk (c.toUpper :: cs)

/-- Character-level splitter used to model `name.split(/\s+/g)`: splitting at
every whitespace character followed by dropping empty segments coincides with
splitting on whitespace runs. -/
def splitCharsBy (p : Char → Bool) : List Char → List Char → List (List Char)
  | [], acc => [acc.reverse]
  | c :: rest, acc =>
    if p c then acc.reverse :: splitCharsBy p rest []
    else splitCharsBy p rest (c :: acc)

/-- `pascalCase`: split on whitespace, drop empty segments, capitalize each
segment and concatenate. -/
def pascalCase (name : String) : String :=
  ((((splitCharsBy (fun c => c.isWhitespace) name.data []).map
      (fun cs => String.mk cs)).filter (fun s => s != "")).map
    capitalize).foldl (fun a b => a ++ b) ""

/-- `normalizeInvalidTypeName`: keep a name matching `^[a-zA-Z][a-zA-Z0-9]*$`
unchanged; otherwise strip every character that is not a letter or digit and
prefix an underscore when the remainder does not start with a letter. -/
def normalizeInvalidTypeName (name : String) : String :=
  let isBare : Bool :=
    match name.data with
    | [] => false
    | c :: rest => c.isAlpha && rest.all (fun d => d.isAlpha || d.isDigit)
  if isBare then name
  else
    let noSymbolsName := String.mk (name.data.filter (fun c => c.isAlpha || c.isDigit))
    let startsWithWordCharacter : Bool :=
      match noSymbolsName.data with
      | [] => false
      | c :: _ => c.isAlpha
    if startsWithWordCharacter then noSymbolsName else "_" ++ noSymbolsName

/-- Modelled from the spec: `get-names.ts` imports the external `pluralize`
library (not part of this repository) and uses `pluralize.singular` as a
"heuristic pluralization reversal, e.g. \"users\" → \"User\"".  Modelled as
dropping one trailing `s` from a word of length at least two. -/
def singular (name : String) : String :=
  if strEndsWith name "s" && decide (2 ≤ name.length) then String.mk name.data.dropLast
  else name

/-- The proposal tried at loop index `i` of `uniqueByIncrement`: the bare
name for `i = 0`, the bare name suffixed with `i + 1` afterwards. -/
def nameProposal (name : String) (i : Nat) : String :=
  if i == 0 then name else name ++ toString (i + 1)

/-- Loop body of `uniqueByIncrement`: `for (let i = 0; i < 1000; i++)`.  The
`names` array holds runtime values that may include `undefined`, which never
equals a string proposal. -/
def uniqueByIncrementGo (name : String) (names : List (Option String)) :
    Nat → Nat → Option String
  | _, 0 => none
  | i, fuel + 1 =>
    if names.contains (some (nameProposal name i)) then
      uniqueByIncrementGo name names (i + 1) fuel
    else some (nameProposal name i)

/-- `uniqueByIncrement`: bounded search (1000 attempts) for an unused name;
returns the JavaScript value `undefined` on exhaustion. -/
def uniqueByIncrement (name : String) (names : List (Option String)) : Option String :=
  uniqueByIncrementGo name names 0 1000

/-- The object-name derivation chain of `getNameById`: strip key metadata,
singularize when inside an array, PascalCase, strip invalid characters,
PascalCase again. -/
def deriveObjectName (keyName : String) (isInsideArray : Bool) : String :=
  pascalCase (normalizeInvalidTypeName (pascalCase
    (if isInsideArray then singular (parseKeyMetaData keyName).keyValue
     else (parseKeyMetaData keyName).keyValue)))

/-- The `isMultipleTypeArray` test of `formatArrayName`:
`isHash(innerTypeId) && findTypeById(...).isUnion && findTypeById(...).arrayOfTypes.length > 1`,
with `none` modelling the thrown `TypeError` when the digest has no
descriptor (or a union descriptor has no `arrayOfTypes`). -/
def isMultipleTypeArrayCheck (innerTypeId : String) (types : List TypeDescription) :
    Option Bool :=
  if isHash innerTypeId then
    match findTypeById innerTypeId types with
    | none => none
    | some inner =>
      if inner.isUnion then
        match inner.arrayOfTypes with
        | none => none
        | some innerItems => some (decide (1 < innerItems.length))
      else some false
  else some false

mutual

/-- `getName`: depth-first naming walk.  Children are named before the parent
so that the parent's rendered type can reference them.  The result pairs the
root's resolved name (possibly the JavaScript value `undefined`) with the
mutated name list; `none` models a thrown error or exhausted fuel. -/
def getName : Nat → String → List TypeDescription → String → List NameEntry → Bool →
    Option (Option String × List NameEntry)
  | 0, _, _, _, _, _ => none
  | fuel + 1, rootTypeId, types, keyName, names, isInsideArray =>
    let typeDesc := types.find? (fun d => d.id == rootTypeId)
    match getTypeDescriptionGroup typeDesc with
    | TypeGroup.Array =>
      match typeDesc with
      | some d =>
        match d.arrayOfTypes with
        | some items => do
          let names1 ← getNameArrayItems fuel items 0 types keyName names
          getNameById fuel d.id (some keyName) isInsideArray types names1
        | none => none
      | none => none
    | TypeGroup.Object =>
      match typeDesc with
      | some d =>
        match d.typeObj with
        | some fields => do
          let names1 ← getNameObjectFields fuel fields types names
          getNameById fuel d.id (some keyName) isInsideArray types names1
        | none => none
      | none => none
    | TypeGroup.Primitive => some (some rootTypeId, names)

/-- The `forEach` over `typeDesc.arrayOfTypes` in `getName`'s array case:
the first element reuses the key name, later elements append their 1-based
position plus one to differentiate array types. -/
def getNameArrayItems : Nat → List String → Nat → List TypeDescription → String →
    List NameEntry → Option (List NameEntry)
  | 0, _, _, _, _, _ => none
  | _ + 1, [], _, _, _, names => some names
  | fuel + 1, typeIdOrPrimitive :: rest, i, types, keyName, names => do
    let r ← getName fuel typeIdOrPrimitive types
      (if i == 0 then keyName else keyName ++ toString (i + 1)) names true
    getNameArrayItems fuel rest (i + 1) types keyName r.2

/-- The `forEach` over `Object.entries(typeDesc.typeObj)` in `getName`'s
object case. -/
def getNameObjectFields : Nat → List (String × String) → List TypeDescription →
    List NameEntry → Option (List NameEntry)
  | 0, _, _, _ => none
  | _ + 1, [], _, names => some names
  | fuel + 1, (key, value) :: rest, types, names => do
    let r ← getName fuel value types key names false
    getNameObjectFields fuel rest types r.2

/-- `getNameById`: memoized name computation for one ShapeId.  On a memo miss
the array/object name is computed and the `(id, name)` pair is pushed onto the
name list; a missing descriptor leaves `name` as `undefined` (no switch case
matches the primitive group) and still records the entry. -/
def getNameById : Nat → String → Option String → Bool → List TypeDescription →
    List NameEntry → Option (Option String × List NameEntry)
  | 0, _, _, _, _, _ => none
  | fuel + 1, id, keyName, isInsideArray, types, nameMap =>
    match nameMap.find? (fun e => e.id == id) with
    | some nameEntry => some (nameEntry.name, nameMap)
    | none =>
      match findTypeById id types with
      | some d =>
        if d.arrayOfTypes.isSome then do
          let r ← (if d.isUnion then getArrayName fuel d types nameMap
                   else formatArrayName fuel d types nameMap)
          return (r.1, r.2 ++ [NameEntry.mk id r.1])
        else
          match keyName with
          | none => none
          | some k =>
            let name := uniqueByIncrement (deriveObjectName k isInsideArray)
              (nameMap.map (fun e => e.name))
            some (name, nameMap ++ [NameEntry.mk id name])
      | none => some (none, nameMap ++ [NameEntry.mk id none])

/-- `getArrayName`: zero element shapes render as `any`, a single element
shape renders as that element's readable type, several render as the union
string.  An absent `arrayOfTypes` makes the `.length` access throw. -/
def getArrayName : Nat → TypeDescription → List TypeDescription → List NameEntry →
    Option (Option String × List NameEntry)
  | 0, _, _, _ => none
  | fuel + 1, typeDesc, types, nameMap =>
    match typeDesc.arrayOfTypes with
    | none => none
    | some [] => some (some "any", nameMap)
    | some [idOrPrimitive] => convertToReadableType fuel idOrPrimitive types nameMap
    | some _ => unionToString fuel typeDesc types nameMap

/-- `convertToReadableType`: a structural digest resolves through
`getNameById` (with a `null` key name), a primitive token is kept verbatim. -/
def convertToReadableType : Nat → String → List TypeDescription → List NameEntry →
    Option (Option String × List NameEntry)
  | 0, _, _, _ => none
  | fuel + 1, idOrPrimitive, types, nameMap =>
    if isHash idOrPrimitive then getNameById fuel idOrPrimitive none true types nameMap
    else some (some idOrPrimitive, nameMap)

/-- `unionToString`: `reduce` over the element shapes, joining readable type
names with `" | "` in element order. -/
def unionToString : Nat → TypeDescription → List TypeDescription → List NameEntry →
    Option (Option String × List NameEntry)
  | 0, _, _, _ => none
  | fuel + 1, typeDesc, types, nameMap =>
    match typeDesc.arrayOfTypes with
    | none => none
    | some items => unionToStringItems fuel items 0 (some "") types nameMap

/-- The `reduce` body of `unionToString`: the first readable name replaces
the accumulator, later ones are appended after `" | "` (template-literal
interpolation turns the JavaScript value `undefined` into the text
`undefined`). -/
def unionToStringItems : Nat → List String → Nat → Option String →
    List TypeDescription → List NameEntry → Option (Option String × List NameEntry)
  | 0, _, _, _, _, _ => none
  | _ + 1, [], _, acc, _, nameMap => some (acc, nameMap)
  | fuel + 1, ty :: rest, i, acc, types, nameMap => do
    let r ← convertToReadableType fuel ty types nameMap
    let acc1 := if i == 0 then r.1 else some (tsStr acc ++ " | " ++ tsStr r.1)
    unionToStringItems fuel rest (i + 1) acc1 types r.2

/-- `formatArrayName`: compute whether the single inner element is itself a
true union array (in which case the rendered union is parenthesized), then
append `[]` to the readable inner type.  `arrayOfTypes[0]` being `undefined`
makes `isHash` throw; a digest without a descriptor makes the `.isUnion`
access throw. -/
def formatArrayName : Nat → TypeDescription → List TypeDescription → List NameEntry →
    Option (Option String × List NameEntry)
  | 0, _, _, _ => none
  | fuel + 1, typeDesc, types, nameMap =>
    match typeDesc.arrayOfTypes with
    | none => none
    | some items =>
      match items.head? with
      | none => none
      | some innerTypeId => do
          let isMultipleTypeArray ← isMultipleTypeArrayCheck innerTypeId types
          let r ← getArrayName fuel typeDesc types nameMap
          return (some (if isMultipleTypeArray then "(" ++ tsStr r.1 ++ ")[]"
                        else tsStr r.1 ++ "[]"), r.2)

end

/-- `getNames`: run the naming walk from the root with an empty name list and
reverse the recorded entries so the root comes first. -/
def getNames (fuel : Nat) (typeStructure : TypeStructure) (rootName : String) :
    Option (List NameEntry) :=
  (getName fuel typeStructure.rootTypeId typeStructure.types rootName [] false).map
    (fun r => r.2.reverse)

/-! ## index.ts (`src/src/type-generation/index.ts`) and the Builder/Optimizer

The Type Structure Builder and Optimizer live in `get-type-structure.ts`,
which is not among the available source files (only its import and call sites
are).  The definitions below marked `Modelled from the spec:` reconstruct
them from the specification. -/

/-- `isObject` from util.ts, applied to a JSON value: only a JSON object has
`Object.prototype.toString` tag `[object Object]`. -/
def isObject : Json → Bool
  | Json.obj _ => true
  | _ => false

/-- `isArray` from util.ts, applied to a JSON value. -/
def isArray : Json → Bool
  | Json.arr _ => true
  | _ => false

mutual

/-- Node count of a JSON document, bounding the builder walk's depth. -/
def jsonSize : Json → Nat
  | Json.null => 1
  | Json.bool _ => 1
  | Json.num _ => 1
  | Json.str _ => 1
  | Json.arr elems => 1 + jsonListSize elems
  | Json.obj fields => 1 + jsonFieldsSize fields

/-- Node count of a list of JSON documents. -/
def jsonListSize : List Json → Nat
  | [] => 1
  | x :: xs => 1 + jsonSize x + jsonListSize xs

/-- Node count of a JSON object's field list. -/
def jsonFieldsSize : List (String × Json) → Nat
  | [] => 1
  | (_, v) :: xs => 1 + jsonSize v + jsonFieldsSize xs

end

/-- Structural worker for `uniqFirst`: drop elements already seen. -/
def uniqFirstAux : List String → List String → List String
  | [], _ => []
  | x :: xs, seen =>
    if seen.contains x then uniqFirstAux xs seen
    else x :: uniqFirstAux xs (x :: seen)

/-- Modelled from the spec: `onlyUnique`-style deduplication keeping the
first occurrence of each element, as `filter(onlyUnique)` does. -/
def uniqFirst (l : List String) : List String :=
  uniqFirstAux l []

/-- Modelled from the spec: the Structural Hasher's "fixed-length hex digest,
never empty, never colliding with a primitive token string".  The builder
keys shapes by content, so the digest is realized as the 40-character decimal
rendering of the shape's insertion index (identical shapes reuse one
descriptor and hence one digest; distinct indices below `10^40` give distinct
digests, collisions beyond that are the "assumed impossible" case the code
does not defend against). -/
def digestOfIndex (n : Nat) : String :=
  String.mk ((List.range 40).map (fun i => Nat.digitChar (n / 10 ^ i % 10)))

/-- Modelled from the spec: descriptor insertion with structural
deduplication — an existing descriptor with the same content is reused,
otherwise a fresh digest is assigned. -/
def insertShape (tObj : Option (List (String × String))) (aTypes : Option (List String))
    (iu : Bool) (ts : List TypeDescription) : String × List TypeDescription :=
  match ts.find? (fun d => d.typeObj == tObj && d.arrayOfTypes == aTypes && d.isUnion == iu) with
  | some d => (d.id, ts)
  | none =>
    let id := digestOfIndex ts.length
    (id, ts ++ [TypeDescription.mk id tObj aTypes iu])

/-- Modelled from the spec: merging all-object array elements — the merged
field set is the union of every element's fields in first-seen order, a field
absent from at least one contributor gets the optional sentinel suffix, and a
field whose contributors disagree on the type becomes a union descriptor. -/
def mergeFieldStep (descs : List TypeDescription)
    (acc : List (String × String) × List TypeDescription) (k : String) :
    List (String × String) × List TypeDescription :=
  let contributed := descs.filterMap (fun d =>
    ((d.typeObj.getD []).find? (fun kv => (parseKeyMetaData kv.1).keyValue == k)).map
      (fun kv => kv.2))
  let presentInAll := descs.all (fun d =>
    (d.typeObj.getD []).any (fun kv => (parseKeyMetaData kv.1).keyValue == k))
  match uniqFirst contributed with
  | [t] => (acc.1 ++ [((if presentInAll then k else k ++ "--?"), t)], acc.2)
  | l =>
    let r := insertShape none (some l) true acc.2
    (acc.1 ++ [((if presentInAll then k else k ++ "--?"), r.1)], r.2)

/-- Modelled from the spec: the merged field set is accumulated key by key
over the union of every contributing element's keys. -/
def mergeObjectFields (descs : List TypeDescription) (keys : List String)
    (ts : List TypeDescription) : List (String × String) × List TypeDescription :=
  keys.foldl (mergeFieldStep descs) ([], ts)

mutual

/-- Modelled from the spec: the Type Structure Builder's recursive walk.
Scalars resolve to primitive tokens; an object resolves its fields and
deduplicates by shape; an array resolves its elements, merges uniformly
object-shaped elements into one shape, and otherwise keeps the distinct
shapes with the true-union flag (set whenever the deduplicated element list
does not have exactly one member, so an empty array renders as `any`).  The
fuel bounds the recursion depth; `none` models stack exhaustion. -/
def getTypeStructureOf : Nat → Json → List TypeDescription →
    Option (String × List TypeDescription)
  | 0, _, _ => none
  | _ + 1, Json.null, ts => some ("null", ts)
  | _ + 1, Json.bool _, ts => some ("boolean", ts)
  | _ + 1, Json.num _, ts => some ("number", ts)
  | _ + 1, Json.str _, ts => some ("string", ts)
  | fuel + 1, Json.obj fields, ts =>
    (walkFields fuel fields ts).map (fun r => insertShape (some r.1) none false r.2)
  | fuel + 1, Json.arr elems, ts =>
    (walkElems fuel elems ts).map (fun r =>
      let uniqIds := uniqFirst r.1
      let allObjects := !uniqIds.isEmpty && uniqIds.all (fun i =>
        match findTypeById i r.2 with
        | some d => d.typeObj.isSome
        | none => false)
      if allObjects then
        match uniqIds with
        | [single] => insertShape none (some [single]) false r.2
        | _ =>
          let descs := uniqIds.filterMap (fun i => findTypeById i r.2)
          let keys := uniqFirst (descs.foldr (fun d acc =>
            (d.typeObj.getD []).map (fun kv => (parseKeyMetaData kv.1).keyValue) ++ acc) [])
          let m := mergeObjectFields descs keys r.2
          let merged := insertShape (some m.1) none false m.2
          insertShape none (some [merged.1]) false merged.2
      else
        insertShape none (some uniqIds) (uniqIds.length != 1) r.2)

/-- Modelled from the spec: field-by-field walk of an object. -/
def walkFields : Nat → List (String × Json) → List TypeDescription →
    Option (List (String × String) × List TypeDescription)
  | 0, _, _ => none
  | _ + 1, [], ts => some ([], ts)
  | fuel + 1, (k, v) :: rest, ts => do
    let r ← getTypeStructureOf fuel v ts
    let rs ← walkFields fuel rest r.2
    return ((k, r.1) :: rs.1, rs.2)

/-- Modelled from the spec: element-by-element walk of an array. -/
def walkElems : Nat → List Json → List TypeDescription →
    Option (List String × List TypeDescription)
  | 0, _, _ => none
  | _ + 1, [], ts => some ([], ts)
  | fuel + 1, v :: rest, ts => do
    let r ← getTypeStructureOf fuel v ts
    let rs ← walkElems fuel rest r.2
    return (r.1 :: rs.1, rs.2)

end

/-- Modelled from the spec: `getTypeStructure` builds the shape graph from an
empty descriptor collection (the size of the document bounds the walk's
recursion depth). -/
def getTypeStructure (json : Json) : Option TypeStructure :=
  (getTypeStructureOf (jsonSize json) json []).map (fun r => TypeStructure.mk r.1 r.2)

/-- Ids referenced from a descriptor's fields or elements. -/
def referencedIds (d : TypeDescription) : List String :=
  (d.typeObj.getD []).map (fun kv => kv.2) ++ d.arrayOfTypes.getD []

/-- One expansion step of the reachability sweep. -/
def reachableStep (types : List TypeDescription) (visited : List String) : List String :=
  uniqFirst (visited ++ (types.filter (fun d => visited.contains d.id)).foldr
    (fun d acc => referencedIds d ++ acc) [])

/-- Iterated expansion to a fixed point (the descriptor count bounds the
number of useful iterations). -/
def iterateReach (types : List TypeDescription) : Nat → List String → List String
  | 0, v => v
  | n + 1, v => iterateReach types n (reachableStep types v)

/-- Modelled from the spec: the Optimizer's reachability sweep — descriptors
not reachable from the root id are deleted. -/
def optimizeTypeStructure (ts : TypeStructure) : TypeStructure :=
  let visited := iterateReach ts.types (ts.types.length + 1) [ts.rootTypeId]
  TypeStructure.mk ts.rootTypeId (ts.types.filter (fun d => visited.contains d.id))

/-- The post-builder pipeline of `jsonToTS`: assign names, build interface
descriptions, and render each one, marking as root (hence `export`ed) exactly
the descriptions whose name is strictly equal to the configured root name. -/
def generateInterfaces (ts : TypeStructure) (rootName : String) (fuel : Nat) :
    Option (List String) := do
  let names ← getNames fuel ts rootName
  let descs ← getInterfaceDescriptions ts names
  return descs.map (fun d =>
    getInterfaceStringFromDescription d.name d.typeMap (d.name == some rootName))

/-- Recursion fuel for a pipeline run, generous for the structure at hand. -/
def pipelineFuel (ts : TypeStructure) : Nat :=
  1000 * (ts.types.length + 1)

/-- The message thrown for an unsupported root shape. -/
def jsonToTSMessage : String := "Only (Object) and (Array of Object) are supported"

/-- The root-shape validation of `jsonToTS`: `isObject(json)` or
`isArray(json) && json.length > 0 && json.reduce((a, b) => a && isObject(b), true)`. -/
def jsonToTSAccepts (json : Json) : Bool :=
  let isArrayOfObjects :=
    match json with
    | Json.arr elems => decide (0 < elems.length) && elems.foldl (fun a b => a && isObject b) true
    | _ => false
  isObject json || isArrayOfObjects

/-- `jsonToTS`: validate the root shape (object, or non-empty array of
objects, via the `reduce` over the array), then build, optimize, name and
synthesize.  `some (Except.error _)` is the thrown validation error;
`none` models a crash in a later stage. -/
def jsonToTS (json : Json) (userRootName : Option String) :
    Option (Except String (List String)) :=
  let rootName := userRootName.getD "RootObject"
  if !(jsonToTSAccepts json) then some (Except.error jsonToTSMessage)
  else
    (getTypeStructure json).bind (fun ts0 =>
      let ts := optimizeTypeStructure ts0
      (generateInterfaces ts rootName (pipelineFuel ts)).map Except.ok)

/-! ## Theorems -/

/-- The root shapes the specification allows: a JSON object, or a non-empty
array whose every member is a JSON object. -/
def AcceptableRoot (json : Json) : Prop :=
  (∃ fields, json = Json.obj fields) ∨
  (∃ elems, json = Json.arr elems ∧ elems ≠ [] ∧ ∀ e ∈ elems, ∃ f, e = Json.obj f)

lemma foldl_and_isObject (elems : List Json) (a : Bool) :
    elems.foldl (fun a b => a && isObject b) a = (a && elems.all isObject) := by
  induction elems generalizing a with
  | nil => simp
  | cons x xs ih => simp [List.foldl_cons, ih, Bool.and_assoc]

lemma map_ok_ne_some_error (o : Option (List String)) (msg : String) :
    o.map Except.ok ≠ some (Except.error msg) := by
  cases o <;> simp

lemma bind_map_ok_ne_error {α : Type} (o : Option α) (g : α → Option (List String))
    (msg : String) :
    (o.bind (fun a => (g a).map Except.ok)) ≠ some (Except.error msg) := by
  cases o with
  | none => simp
  | some a =>
    simp only [Option.some_bind]
    exact map_ok_ne_some_error _ _

lemma jsonToTSAccepts_iff (json : Json) :
    jsonToTSAccepts json = true ↔ AcceptableRoot json := by
  cases json with
  | obj fields =>
    constructor
    · intro _
      exact Or.inl ⟨fields, rfl⟩
    · intro _
      rfl
  | arr elems =>
    have ha : jsonToTSAccepts (Json.arr elems)
        = (decide (0 < elems.length) && elems.foldl (fun a b => a && isObject b) true) := rfl
    rw [ha, foldl_and_isObject]
    simp only [Bool.true_and, Bool.and_eq_true, decide_eq_true_eq]
    constructor
    · intro h
      refine Or.inr ⟨elems, rfl, ?_, ?_⟩
      · intro hnil
        subst hnil
        simp at h
      · intro e he
        have he2 := List.all_eq_true.mp h.2 e he
        cases e <;> simp [isObject] at he2 ⊢
    · rintro (⟨f, hf⟩ | ⟨es, hes, hne, hobj⟩)
      · exact Json.noConfusion hf
      · injection hes with h1
        subst h1
        refine ⟨List.length_pos.mpr hne, List.all_eq_true.mpr ?_⟩
        intro e he
        obtain ⟨f, hf⟩ := hobj e he
        subst hf
        rfl
  | null =>
    constructor
    · intro h
      exact Bool.noConfusion h
    · rintro (⟨f, hf⟩ | ⟨es, hes, hne, hobj⟩) <;> exact Json.noConfusion (by assumption)
  | bool b =>
    constructor
    · intro h
      exact Bool.noConfusion h
    · rintro (⟨f, hf⟩ | ⟨es, hes, hne, hobj⟩) <;> exact Json.noConfusion (by assumption)
  | num n =>
    constructor
    · intro h
      exact Bool.noConfusion h
    · rintro (⟨f, hf⟩ | ⟨es, hes, hne, hobj⟩) <;> exact Json.noConfusion (by assumption)
  | str s =>
    constructor
    · intro h
      exact Bool.noConfusion h
    · rintro (⟨f, hf⟩ | ⟨es, hes, hne, hobj⟩) <;> exact Json.noConfusion (by assumption)

/-- **C3**: `jsonToTS` raises its validation error, before any shape
descriptor is built, exactly when the root is neither a JSON object nor a
non-empty array all of whose members are JSON objects; primitive roots,
empty root arrays, and root arrays with a non-object member are all
rejected. -/
theorem jsonToTS_rejects_iff_unsupported_root (json : Json) (r : Option String) :
    jsonToTS json r = some (Except.error jsonToTSMessage) ↔ ¬ AcceptableRoot json := by
  by_cases h : jsonToTSAccepts json
  · rw [jsonToTS, if_neg (by simp [h])]
    constructor
    · intro hc
      exact absurd hc (bind_map_ok_ne_error _ _ _)
    · intro hc
      exact absurd ((jsonToTSAccepts_iff json).mp h) hc
  · rw [jsonToTS, if_pos (by simp [Bool.eq_false_iff.mpr h])]
    constructor
    · intro _ hc
      exact h ((jsonToTSAccepts_iff json).mpr hc)
    · intro _
      rfl

/-- Witness for C3: a primitive root is rejected with the validation error. -/
theorem jsonToTS_rejects_witness :
    jsonToTS (Json.num 3) none = some (Except.error jsonToTSMessage) := by
  refine (jsonToTS_rejects_iff_unsupported_root (Json.num 3) none).mpr ?_
  rintro (⟨f, hf⟩ | ⟨es, hes, hne, hobj⟩) <;> exact Json.noConfusion (by assumption)

/-- **C8**: the pipeline is deterministic — byte-identical JSON input and
identical options yield identical output lists (the embedding threads all
naming state explicitly from an empty list per run; no state crosses runs). -/
theorem jsonToTS_deterministic (j j' : Json) (r r' : Option String)
    (hj : j = j') (hr : r = r') : jsonToTS j r = jsonToTS j' r' := by
  rw [hj, hr]

/-- Witness for C8 at a concrete input. -/
theorem jsonToTS_deterministic_witness :
    jsonToTS (Json.obj [("a", Json.num 1)]) none =
      jsonToTS (Json.obj [("a", Json.num 1)]) none :=
  jsonToTS_deterministic _ _ _ _ rfl rfl

lemma uniqueByIncrementGo_some (name : String) (names : List (Option String)) :
    ∀ fuel i s, uniqueByIncrementGo name names i fuel = some s →
      ∃ m, i ≤ m ∧ m < i + fuel ∧ s = nameProposal name m ∧
        names.contains (some s) = false ∧
        ∀ j, i ≤ j → j < m → names.contains (some (nameProposal name j)) = true := by
  intro fuel
  induction fuel with
  | zero => intro i s h; exact Option.noConfusion h
  | succ fuel ih =>
    intro i s h
    rw [uniqueByIncrementGo] at h
    by_cases hc : names.contains (some (nameProposal name i)) = true
    · rw [if_pos hc] at h
      obtain ⟨m, h1, h2, h3, h4, h5⟩ := ih (i + 1) s h
      refine ⟨m, by omega, by omega, h3, h4, ?_⟩
      intro j hj1 hj2
      rcases Nat.eq_or_lt_of_le hj1 with rfl | hlt
      · exact hc
      · exact h5 j hlt hj2
    · rw [if_neg hc] at h
      cases h
      exact ⟨i, le_refl i, by omega, rfl, Bool.eq_false_iff.mpr hc, fun j h1 h2 => absurd (lt_of_le_of_lt h1 h2) (lt_irrefl i)⟩

lemma uniqueByIncrementGo_none (name : String) (names : List (Option String)) :
    ∀ fuel i, (∀ j, i ≤ j → j < i + fuel →
        names.contains (some (nameProposal name j)) = true) →
      uniqueByIncrementGo name names i fuel = none := by
  intro fuel
  induction fuel with
  | zero => intro i h; rfl
  | succ fuel ih =>
    intro i h
    rw [uniqueByIncrementGo, if_pos (h i (le_refl i) (by omega))]
    exact ih (i + 1) (fun j h1 h2 => h j (by omega) (by omega))

/-- **C5**: when the bounded search succeeds, it returns a name unused so
far; it is the bare name whenever the bare name is unused, and otherwise the
bare name with the smallest unused integer suffix, the suffixes starting at 2
and the search trying at most the 1000 proposals `name`, `name2`, …,
`name1000`. -/
theorem uniqueByIncrement_spec (name : String) (names : List (Option String)) (s : String)
    (h : uniqueByIncrement name names = some s) :
    names.contains (some s) = false ∧
    (names.contains (some name) = false → s = name) ∧
    (names.contains (some name) = true →
      ∃ k, 2 ≤ k ∧ k ≤ 1000 ∧ s = name ++ toString k ∧
        ∀ j, 2 ≤ j → j < k → names.contains (some (name ++ toString j)) = true) := by
  obtain ⟨m, -, hm2, hs, hfree, hmin⟩ := uniqueByIncrementGo_some name names 1000 0 s h
  have hp0 : nameProposal name 0 = name := by simp [nameProposal]
  refine ⟨hfree, ?_, ?_⟩
  · intro hnameFree
    rcases Nat.eq_zero_or_pos m with rfl | hpos
    · rw [hs, hp0]
    · have hcon := hmin 0 (Nat.zero_le 0) hpos
      rw [hp0, hnameFree] at hcon
      exact Bool.noConfusion hcon
  · intro hnameTaken
    rcases Nat.eq_zero_or_pos m with rfl | hpos
    · rw [hp0] at hs
      subst hs
      rw [hnameTaken] at hfree
      exact Bool.noConfusion hfree
    · refine ⟨m + 1, by omega, by omega, ?_, ?_⟩
      · have : (m == 0) = false := by simp [Nat.pos_iff_ne_zero.mp hpos]
        simpa [nameProposal, this] using hs
      · intro j hj1 hj2
        have hje := hmin (j - 1) (Nat.zero_le _) (by omega)
        have : ((j - 1 : Nat) == 0) = false := by
          simp only [beq_eq_false_iff_ne, ne_eq]
          omega
        rw [nameProposal, this] at hje
        simp only [Bool.false_eq_true, if_false] at hje
        have hjeq : j - 1 + 1 = j := by omega
        rwa [hjeq] at hje

/-- Witness for C5: with `A` and `A2` taken, the search returns `A3`. -/
theorem uniqueByIncrement_spec_witness :
    uniqueByIncrement "A" [some "A", some "A2"] = some "A3" ∧
    ([some "A", some "A2"] : List (Option String)).contains (some "A3") = false := by
  have h : uniqueByIncrement "A" [some "A", some "A2"] = some "A3" := by decide
  exact ⟨h, (uniqueByIncrement_spec "A" [some "A", some "A2"] "A3" h).1⟩

lemma contains_of_mem {α} [BEq α] [LawfulBEq α] {l : List α} {a : α} (h : a ∈ l) :
    l.contains a = true :=
  List.elem_eq_true_of_mem h

/-- **C9**: when every one of the 1000 proposals (the bare name and the
suffixed names `name2` … `name1000`) is already assigned, `uniqueByIncrement`
returns the JavaScript value `undefined` without raising, and `getNameById`
still records a `NameEntry` whose name is `undefined` and returns that
`undefined` value. -/
theorem getNameById_exhausted_records_undefined
    (fuel : Nat) (id k : String) (isInsideArray : Bool)
    (types : List TypeDescription) (d : TypeDescription) (nameMap : List NameEntry)
    (hmiss : nameMap.find? (fun e => e.id == id) = none)
    (hfind : findTypeById id types = some d)
    (harr : d.arrayOfTypes = none)
    (htaken : ∀ i, i < 1000 →
      (nameMap.map (fun e => e.name)).contains
        (some (nameProposal (deriveObjectName k isInsideArray) i)) = true) :
    uniqueByIncrement (deriveObjectName k isInsideArray)
        (nameMap.map (fun e => e.name)) = none ∧
    getNameById (fuel + 1) id (some k) isInsideArray types nameMap =
      some (none, nameMap ++ [NameEntry.mk id none]) := by
  have hnone : uniqueByIncrement (deriveObjectName k isInsideArray)
      (nameMap.map (fun e => e.name)) = none := by
    apply uniqueByIncrementGo_none
    intro j hj1 hj2
    exact htaken j (by omega)
  refine ⟨hnone, ?_⟩
  rw [getNameById]
  simp only [hmiss, hfind, harr, Option.isSome_none, Bool.false_eq_true, if_false, hnone]

/-- The digest used by the C9 witness. -/
def c9Id : String := String.mk (List.replicate 40 'x')

/-- The descriptor collection used by the C9 witness: one object descriptor. -/
def c9Types : List TypeDescription := [TypeDescription.mk c9Id (some []) none false]

/-- The saturated name list used by the C9 witness: all 1000 proposals for
the base name `N` are taken. -/
def c9NameMap : List NameEntry :=
  (List.range 1000).map (fun i => NameEntry.mk "e" (some (nameProposal "N" i)))

/-- Per-member rendering of a union's element shapes, in element order, with
the name-list state threaded left to right (the fuel bookkeeping mirrors
`unionToStringItems`). -/
def renderMembers : Nat → List String → List TypeDescription → List NameEntry →
    Option (List (Option String) × List NameEntry)
  | 0, _, _, _ => none
  | _ + 1, [], _, nameMap => some ([], nameMap)
  | fuel + 1, ty :: rest, types, nameMap => do
    let r ← convertToReadableType fuel ty types nameMap
    let rs ← renderMembers fuel rest types r.2
    return (r.1 :: rs.1, rs.2)

/-- Joining rendered members with `" | "` in order: the first member starts
the string, every later member is appended after a separator. -/
def joinPipeOpt : List (Option String) → Option String
  | [] => some ""
  | r :: rest => rest.foldl (fun acc x => some (tsStr acc ++ " | " ++ tsStr x)) r

/-- The accumulator view of `joinPipeOpt` as computed by the `reduce` of
`unionToString`. -/
def joinMembersFrom : Nat → Option String → List (Option String) → Option String
  | _, acc, [] => acc
  | i, acc, r :: rest =>
    joinMembersFrom (i + 1) (if i == 0 then r else some (tsStr acc ++ " | " ++ tsStr r)) rest

lemma joinMembersFrom_ge_one (rest : List (Option String)) :
    ∀ i acc, 1 ≤ i →
      joinMembersFrom i acc rest =
        rest.foldl (fun acc x => some (tsStr acc ++ " | " ++ tsStr x)) acc := by
  induction rest with
  | nil => intro i acc _; rfl
  | cons x xs ih =>
    intro i acc hi
    have hne : (i == 0) = false := by
      simp only [beq_eq_false_iff_ne, ne_eq]
      omega
    rw [joinMembersFrom, hne]
    simp only [Bool.false_eq_true, if_false, List.foldl_cons]
    exact ih (i + 1) _ (by omega)

lemma joinMembersFrom_zero (rs : List (Option String)) :
    joinMembersFrom 0 (some "") rs = joinPipeOpt rs := by
  cases rs with
  | nil => rfl
  | cons r rest =>
    rw [joinMembersFrom]
    simp only [beq_self_eq_true, if_true, joinPipeOpt]
    exact joinMembersFrom_ge_one rest 1 r (le_refl 1)

lemma unionToStringItems_eq_render (types : List TypeDescription) :
    ∀ fuel items i acc nameMap,
      unionToStringItems fuel items i acc types nameMap =
        (renderMembers fuel items types nameMap).map
          (fun p => (joinMembersFrom i acc p.1, p.2)) := by
  intro fuel
  induction fuel with
  | zero => intro items i acc nameMap; rfl
  | succ fuel ih =>
    intro items i acc nameMap
    cases items with
    | nil => rfl
    | cons ty rest =>
      rw [unionToStringItems, renderMembers]
      cases hc : convertToReadableType fuel ty types nameMap with
      | none => rfl
      | some r =>
        simp only [Option.bind_eq_bind, Option.some_bind, ih]
        cases hr : renderMembers fuel rest types r.2 with
        | none => rfl
        | some rs =>
          simp only [Option.map_some', Option.some_bind, Option.map]
          rw [joinMembersFrom]

/-- **C4**: the rendered expression of an array shape is `any` for zero
recorded element shapes; for exactly one element shape it is that element's
readable type, to which `formatArrayName` appends `[]`; for a true union the
members are rendered in element order and joined with `" | "`; and when the
single element of an outer array is itself a multi-member union array, the
union is parenthesized before the outer `[]` is appended. -/
theorem arrayExpression_rendering
    (fuel : Nat) (d : TypeDescription) (types : List TypeDescription)
    (names : List NameEntry) :
    (d.arrayOfTypes = some [] →
      getArrayName (fuel + 1) d types names = some (some "any", names)) ∧
    (∀ e, d.arrayOfTypes = some [e] →
      getArrayName (fuel + 1) d types names = convertToReadableType fuel e types names) ∧
    (∀ e v names2, d.arrayOfTypes = some [e] →
      isMultipleTypeArrayCheck e types = some false →
      getArrayName fuel d types names = some (v, names2) →
      formatArrayName (fuel + 1) d types names = some (some (tsStr v ++ "[]"), names2)) ∧
    (∀ l, d.arrayOfTypes = some l → 2 ≤ l.length →
      getArrayName (fuel + 2) d types names =
        (renderMembers fuel l types names).map (fun p => (joinPipeOpt p.1, p.2))) ∧
    (∀ e v names2, d.arrayOfTypes = some [e] →
      isMultipleTypeArrayCheck e types = some true →
      getArrayName fuel d types names = some (v, names2) →
      formatArrayName (fuel + 1) d types names =
        some (some ("(" ++ tsStr v ++ ")[]"), names2)) := by
  refine ⟨?_, ?_, ?_, ?_, ?_⟩
  · intro h
    rw [getArrayName, h]
  · intro e h
    rw [getArrayName, h]
  · intro e v names2 h hm hg
    rw [formatArrayName, h]
    simp only [List.head?_cons, hm, Option.bind_eq_bind, Option.some_bind, hg]
    rfl
  · intro l h hlen
    match l, hlen with
    | a :: b :: rest, _ =>
      simp only [getArrayName, unionToString, h, unionToStringItems_eq_render,
        joinMembersFrom_zero]
  · intro e v names2 h hm hg
    rw [formatArrayName, h]
    simp only [List.head?_cons, hm, Option.bind_eq_bind, Option.some_bind, hg]
    rfl

/-- Witness for C4: an array descriptor with no recorded element shapes
renders as `any`. -/
theorem arrayExpression_rendering_witness :
    getArrayName 1 (TypeDescription.mk "a" none (some []) true) [] [] =
      some (some "any", []) :=
  (arrayExpression_rendering 0 (TypeDescription.mk "a" none (some []) true) [] []).1 rfl

/-- Witness for C9 at a concrete saturated name list. -/
theorem getNameById_exhausted_witness :
    uniqueByIncrement (deriveObjectName "N" false) (c9NameMap.map (fun e => e.name)) = none ∧
    getNameById 1 c9Id (some "N") false c9Types c9NameMap =
      some (none, c9NameMap ++ [NameEntry.mk c9Id none]) := by
  have hd : deriveObjectName "N" false = "N" := by decide
  have hmap : c9NameMap.map (fun e => e.name)
      = (List.range 1000).map (fun i => some (nameProposal "N" i)) := by
    simp [c9NameMap, List.map_map, Function.comp]
  apply getNameById_exhausted_records_undefined 0 c9Id "N" false c9Types
    (TypeDescription.mk c9Id (some []) none false) c9NameMap
  · apply List.find?_eq_none.mpr
    intro x hx
    obtain ⟨i, -, rfl⟩ := List.mem_map.mp hx
    show ¬(("e" : String) == c9Id) = true
    decide
  · decide
  · rfl
  · intro i hi
    rw [hd, hmap]
    exact contains_of_mem (List.mem_map.mpr ⟨i, List.mem_range.mpr hi, rfl⟩)

/-! ### Lemmas about the interface synthesizer's field passes -/

lemma mapFields_map {α β γ : Type} (g : α → β) (f : β → Option γ) :
    ∀ l : List α, mapFields f (l.map g) = mapFields (fun x => f (g x)) l := by
  intro l
  induction l with
  | nil => rfl
  | cons x xs ih => simp only [List.map_cons, mapFields, ih]

lemma mapFields_mem_some {α β : Type} (f : α → Option β) :
    ∀ (l : List α) (out : List β), mapFields f l = some out → ∀ x ∈ l, ∃ y, f x = some y := by
  intro l
  induction l with
  | nil => intro out _ x hx; exact absurd hx (List.not_mem_nil x)
  | cons a as ih =>
    intro out hout x hx
    rw [mapFields] at hout
    cases hfa : f a with
    | none => rw [hfa] at hout; exact Option.noConfusion hout
    | some y =>
      rw [hfa] at hout
      cases has : mapFields f as with
      | none => rw [has] at hout; exact Option.noConfusion hout
      | some ys =>
        rcases List.mem_cons.mp hx with rfl | hx2
        · exact ⟨y, hfa⟩
        · exact ih ys has x hx2

lemma passes_compose (names : List NameEntry) :
    ∀ l1 : List (String × String × Bool),
      ((mapFields (replaceHashWithName names) l1).bind (fun l2 =>
        (mapFields stripUndefinedMarkOptional l2).map (List.map undefinedToAnyOptional)))
      = mapFields (fun b => ((replaceHashWithName names b).bind
          stripUndefinedMarkOptional).map undefinedToAnyOptional) l1 := by
  intro l1
  induction l1 with
  | nil => rfl
  | cons b bs ih =>
    cases hb : replaceHashWithName names b with
    | none =>
      simp only [mapFields, hb, Option.none_bind, Option.map_none']
    | some y =>
      cases hy : stripUndefinedMarkOptional y with
      | none =>
        cases hbs : mapFields (replaceHashWithName names) bs with
        | none =>
          simp only [mapFields, hb, hy, hbs, Option.none_bind, Option.some_bind,
            Option.map_none', Option.map_some']
        | some ys =>
          simp only [mapFields, hb, hy, hbs, Option.none_bind, Option.some_bind,
            Option.map_none', Option.map_some']
      | some c =>
        cases hbs : mapFields (replaceHashWithName names) bs with
        | none =>
          rw [hbs] at ih
          simp only [Option.none_bind] at ih
          simp only [mapFields, hb, hy, hbs, Option.none_bind, Option.some_bind,
            Option.map_none', Option.map_some', ← ih]
        | some ys =>
          rw [hbs] at ih
          simp only [Option.some_bind] at ih
          cases hys : mapFields stripUndefinedMarkOptional ys with
          | none =>
            rw [hys] at ih
            simp only [Option.map_none'] at ih
            simp only [mapFields, hb, hy, hbs, hys, Option.none_bind, Option.some_bind,
              Option.map_none', Option.map_some', ← ih]
          | some cs =>
            rw [hys] at ih
            simp only [Option.map_some'] at ih
            simp only [mapFields, hb, hy, hbs, hys, Option.none_bind, Option.some_bind,
              Option.map_none', Option.map_some', ← ih, List.map_cons]

lemma replaceTypeObjIdsWithNames_eq (typeObj : List (String × String))
    (names : List NameEntry) :
    replaceTypeObjIdsWithNames typeObj names =
      (mapFields (processField names) typeObj).map
        (fun l => l.foldl (fun agg ktb => jsObjAssign agg ktb.1 ktb.2.1) []) := by
  have hpf : mapFields (processField names) typeObj
      = mapFields (fun b => ((replaceHashWithName names b).bind
          stripUndefinedMarkOptional).map undefinedToAnyOptional)
        (typeObj.map quoteInvalidAndMarkOptional) := by
    rw [mapFields_map]
    rfl
  rw [replaceTypeObjIdsWithNames, hpf, ← passes_compose names]
  cases hA : mapFields (replaceHashWithName names) (typeObj.map quoteInvalidAndMarkOptional) with
  | none => rfl
  | some l2 =>
    simp only [Option.some_bind]
    cases hB : mapFields stripUndefinedMarkOptional l2 with
    | none => rfl
    | some l3 => simp

lemma processField_of_replace (typeObj : List (String × String)) (names : List NameEntry)
    (out : List (String × String)) (h : replaceTypeObjIdsWithNames typeObj names = some out) :
    ∀ kt ∈ typeObj, ∃ r, processField names kt = some r := by
  rw [replaceTypeObjIdsWithNames_eq] at h
  cases hM : mapFields (processField names) typeObj with
  | none => rw [hM] at h; exact absurd h (by simp)
  | some l => exact fun kt hkt => mapFields_mem_some _ typeObj l hM kt hkt

lemma replaceHashWithName_shape (names : List NameEntry) (a : String × String × Bool)
    (x : String × Option String × Bool) (h : replaceHashWithName names a = some x) :
    x.1 = a.1 ∧ x.2.2 = a.2.2 := by
  obtain ⟨k, ty, b⟩ := a
  rw [replaceHashWithName] at h
  by_cases hh : isHash ty = true
  · rw [hh] at h
    simp only [Bool.not_true, Bool.false_eq_true, if_false] at h
    cases hf : findNameById ty names with
    | none => rw [hf] at h; exact Option.noConfusion h
    | some nm =>
      rw [hf] at h
      simp only [Option.map_some', Option.some.injEq] at h
      rw [← h]
      exact ⟨rfl, rfl⟩
  · rw [Bool.eq_false_iff.mpr hh] at h
    simp only [Bool.not_false, if_true, Option.some.injEq] at h
    rw [← h]
    exact ⟨rfl, rfl⟩

lemma stripUndefined_shape (y : String × Option String × Bool)
    (x : String × String × Bool) (h : stripUndefinedMarkOptional y = some x) :
    (x.1 = y.1 ∨ (y.2.2 = false ∧ x.1 = y.1 ++ "?")) ∧ x.2.2 = y.2.2 := by
  obtain ⟨k, ty?, b⟩ := y
  cases ty? with
  | none => exact Option.noConfusion h
  | some ty =>
    rw [stripUndefinedMarkOptional] at h
    by_cases hc : (isNonArrayUnion ty && strIncludes ty "undefined") = true
    · rw [hc] at h
      simp only [Bool.not_true, Bool.false_eq_true, if_false, Option.some.injEq] at h
      rw [← h]
      cases b with
      | true => exact ⟨Or.inl rfl, rfl⟩
      | false => exact ⟨Or.inr ⟨rfl, rfl⟩, rfl⟩
    · rw [Bool.eq_false_iff.mpr hc] at h
      simp only [Bool.not_false, if_true, Option.some.injEq] at h
      rw [← h]
      exact ⟨Or.inl rfl, rfl⟩

lemma undefinedToAny_shape (c : String × String × Bool) :
    (((undefinedToAnyOptional c).1 = c.1) ∨
      (c.2.2 = false ∧ (undefinedToAnyOptional c).1 = c.1 ++ "?")) ∧
    (undefinedToAnyOptional c).2.2 = c.2.2 := by
  obtain ⟨k, ty, b⟩ := c
  by_cases hc : (ty != "undefined") = true <;> cases b <;>
    simp [undefinedToAnyOptional, hc]

lemma quoteInvalid_eq (kt : String × String) :
    quoteInvalidAndMarkOptional kt =
      ((if (parseKeyMetaData kt.1).isOptional then
          (if isKeyNameValid (parseKeyMetaData kt.1).keyValue then
            (parseKeyMetaData kt.1).keyValue
           else "\x27" ++ (parseKeyMetaData kt.1).keyValue ++ "\x27") ++ "?"
        else (if isKeyNameValid (parseKeyMetaData kt.1).keyValue then
            (parseKeyMetaData kt.1).keyValue
          else "\x27" ++ (parseKeyMetaData kt.1).keyValue ++ "\x27")),
       kt.2, (parseKeyMetaData kt.1).isOptional) := by
  rw [quoteInvalidAndMarkOptional]
  cases (parseKeyMetaData kt.1).isOptional <;> simp

lemma processField_key_shape (names : List NameEntry) (kt : String × String)
    (r : String × String × Bool) (hr : processField names kt = some r) :
    (r.1 = (quoteInvalidAndMarkOptional kt).1 ∨
     ((quoteInvalidAndMarkOptional kt).2.2 = false ∧
       (r.1 = (quoteInvalidAndMarkOptional kt).1 ++ "?" ∨
        r.1 = (quoteInvalidAndMarkOptional kt).1 ++ "?" ++ "?"))) ∧
    r.2.2 = (quoteInvalidAndMarkOptional kt).2.2 := by
  rw [processField] at hr
  cases h2 : replaceHashWithName names (quoteInvalidAndMarkOptional kt) with
  | none => rw [h2] at hr; exact Option.noConfusion hr
  | some y =>
    rw [h2] at hr
    obtain ⟨hyk, hyb⟩ := replaceHashWithName_shape names _ y h2
    simp only [Option.some_bind] at hr
    cases h3 : stripUndefinedMarkOptional y with
    | none => rw [h3] at hr; exact Option.noConfusion hr
    | some c =>
      rw [h3] at hr
      obtain ⟨hck, hcb⟩ := stripUndefined_shape y c h3
      simp only [Option.map_some', Option.some.injEq] at hr
      have hu := undefinedToAny_shape c
      rw [← hr]
      refine ⟨?_, by rw [hu.2, hcb, hyb]⟩
      rcases hu.1 with hu1 | ⟨hcb2, hu1⟩
      · rcases hck with hc1 | ⟨hyb2, hc1⟩
        · exact Or.inl (by rw [hu1, hc1, hyk])
        · exact Or.inr ⟨by rw [← hyb, hyb2], Or.inl (by rw [hu1, hc1, hyk])⟩
      · rcases hck with hc1 | ⟨hyb2, hc1⟩
        · refine Or.inr ⟨by rw [← hyb, ← hcb, hcb2], Or.inl ?_⟩
          rw [hu1, hc1, hyk]
        · refine Or.inr ⟨by rw [← hyb, hyb2], Or.inr ?_⟩
          rw [hu1, hc1, hyk]

/-- **C7**: in the synthesizer's field rendering, a key that is not a valid
bare identifier (after stripping the optional sentinel) is wrapped in single
quotes, and an optional field's `?` marker is appended directly after the
(possibly quoted) key, before the type; the marker is never inserted inside
the quotes. -/
theorem fieldKey_quoting_and_optional_marker
    (typeObj : List (String × String)) (names : List NameEntry)
    (out : List (String × String))
    (h : replaceTypeObjIdsWithNames typeObj names = some out) :
    ∀ kt ∈ typeObj, ∃ r, processField names kt = some r ∧
      ((r.1 = (if isKeyNameValid (parseKeyMetaData kt.1).keyValue then
                 (parseKeyMetaData kt.1).keyValue
               else "\x27" ++ (parseKeyMetaData kt.1).keyValue ++ "\x27") ∨
        (∃ s, (s = "?" ∨ s = "?" ++ "?") ∧
          r.1 = (if isKeyNameValid (parseKeyMetaData kt.1).keyValue then
                   (parseKeyMetaData kt.1).keyValue
                 else "\x27" ++ (parseKeyMetaData kt.1).keyValue ++ "\x27") ++ s)) ∧
       ((parseKeyMetaData kt.1).isOptional = true →
        r.1 = (if isKeyNameValid (parseKeyMetaData kt.1).keyValue then
                 (parseKeyMetaData kt.1).keyValue
               else "\x27" ++ (parseKeyMetaData kt.1).keyValue ++ "\x27") ++ "?")) := by
  intro kt hkt
  obtain ⟨r, hr⟩ := processField_of_replace typeObj names out h kt hkt
  refine ⟨r, hr, ?_⟩
  have hshape := processField_key_shape names kt r hr
  rw [quoteInvalid_eq kt] at hshape
  simp only at hshape
  cases hopt : (parseKeyMetaData kt.1).isOptional with
  | true =>
    rw [hopt] at hshape
    simp only [if_true, Bool.true_eq_false, false_and, or_false] at hshape
    exact ⟨Or.inr ⟨"?", Or.inl rfl, hshape.1⟩, fun _ => hshape.1⟩
  | false =>
    rw [hopt] at hshape
    simp only [Bool.false_eq_true, if_false, true_and] at hshape
    refine ⟨?_, fun hx => Bool.noConfusion hx⟩
    rcases hshape.1 with h1 | h1 | h1
    · exact Or.inl h1
    · exact Or.inr ⟨"?", Or.inl rfl, h1⟩
    · refine Or.inr ⟨"?" ++ "?", Or.inr rfl, ?_⟩
      rw [h1, String.append_assoc]

/-- Witness for C7: the invalid key `123abc` of a one-field object map
renders quoted. -/
theorem fieldKey_quoting_witness :
    ∃ r, processField ([] : List NameEntry) ("123abc", "number") = some r ∧
      ((r.1 = (if isKeyNameValid (parseKeyMetaData ("123abc", "number").1).keyValue then
                 (parseKeyMetaData ("123abc", "number").1).keyValue
               else "\x27" ++ (parseKeyMetaData ("123abc", "number").1).keyValue ++ "\x27") ∨
        (∃ s, (s = "?" ∨ s = "?" ++ "?") ∧
          r.1 = (if isKeyNameValid (parseKeyMetaData ("123abc", "number").1).keyValue then
                   (parseKeyMetaData ("123abc", "number").1).keyValue
                 else "\x27" ++ (parseKeyMetaData ("123abc", "number").1).keyValue ++ "\x27") ++ s)) ∧
       ((parseKeyMetaData ("123abc", "number").1).isOptional = true →
        r.1 = (if isKeyNameValid (parseKeyMetaData ("123abc", "number").1).keyValue then
                 (parseKeyMetaData ("123abc", "number").1).keyValue
               else "\x27" ++ (parseKeyMetaData ("123abc", "number").1).keyValue ++ "\x27") ++ "?")) :=
  fieldKey_quoting_and_optional_marker [("123abc", "number")] []
    [("\x27123abc\x27", "number")] (by decide)
    ("123abc", "number") (List.mem_singleton.mpr rfl)

/-! ### Union-with-undefined normalization -/

lemma findIdx_erase_of_mem :
    ∀ l : List String, "undefined" ∈ l →
      ∃ i, l.findIdx? (fun t => t == "undefined") = some i ∧
        l.eraseIdx i = l.erase "undefined" := by
  intro l
  induction l with
  | nil => intro h; exact absurd h (List.not_mem_nil _)
  | cons a xs ih =>
    intro h
    by_cases ha : (a == "undefined") = true
    · refine ⟨0, ?_, ?_⟩
      · rw [List.findIdx?_cons, ha]
        rfl
      · have : a = "undefined" := by simpa using ha
        subst this
        rw [List.eraseIdx_cons_zero, List.erase_cons_head]
    · have hxs : "undefined" ∈ xs := by
        rcases List.mem_cons.mp h with rfl | hx
        · exact absurd (by simp) ha
        · exact hx
      obtain ⟨i, hi, he⟩ := ih hxs
      refine ⟨i + 1, ?_, ?_⟩
      · rw [List.findIdx?_cons, if_neg (by simp [ha]), List.findIdx?_succ, hi]
        rfl
      · rw [List.eraseIdx_cons_succ, List.erase_cons_tail ha, he]

lemma joinPipe_ne_undefined (l : List String) (hne : l ≠ [])
    (hmem : "undefined" ∉ l) : joinPipe l ≠ "undefined" := by
  cases l with
  | nil => exact absurd rfl hne
  | cons x xs =>
    cases xs with
    | nil =>
      rw [joinPipe]
      intro heq
      exact hmem (heq ▸ List.mem_singleton.mpr rfl)
    | cons y rest =>
      rw [joinPipe]
      intro heq
      have hbar : ('|' : Char) ∈ ((x ++ " | ") ++ joinPipe (y :: rest)).data := by
        rw [String.data_append, String.data_append]
        exact List.mem_append.mpr (Or.inl (List.mem_append.mpr (Or.inr (by decide))))
      rw [heq] at hbar
      exact absurd hbar (by decide)

lemma undefinedToAny_noop (k t : String) (b : Bool) (h : t ≠ "undefined") :
    undefinedToAnyOptional (k, t, b) = (k, t, b) := by
  rw [undefinedToAnyOptional, if_pos (by simpa using h)]

/-- **C2**: a field whose resolved display type is a non-array union with an
exact `undefined` member (the members being pairwise distinct, as the builder
deduplicates them) has that member removed and is marked optional, with no
second marker when the field was already optional; the resulting type has no
`undefined` member. -/
theorem unionWithUndefined_normalization
    (typeObj : List (String × String)) (names : List NameEntry)
    (out : List (String × String))
    (h : replaceTypeObjIdsWithNames typeObj names = some out)
    (kt : String × String) (hmem : kt ∈ typeObj)
    (k2 t2 : String) (b2 : Bool)
    (hpass2 : replaceHashWithName names (quoteInvalidAndMarkOptional kt)
      = some (k2, some t2, b2))
    (hunion : isNonArrayUnion t2 = true)
    (hinc : strIncludes t2 "undefined" = true)
    (hmem2 : "undefined" ∈ splitPipe t2)
    (hnodup : (splitPipe t2).Nodup)
    (hlen : 2 ≤ (splitPipe t2).length) :
    processField names kt = some
      ((if b2 then k2 else k2 ++ "?"),
       joinPipe ((splitPipe t2).erase "undefined"), b2) ∧
    "undefined" ∉ (splitPipe t2).erase "undefined" := by
  have hnotmem : "undefined" ∉ (splitPipe t2).erase "undefined" := by
    intro hx
    exact absurd rfl ((hnodup.mem_erase_iff.mp hx).1)
  have hrm : removeUndefinedFromUnion t2 = joinPipe ((splitPipe t2).erase "undefined") := by
    obtain ⟨i, hi, he⟩ := findIdx_erase_of_mem (splitPipe t2) hmem2
    rw [removeUndefinedFromUnion]
    simp only [hi]
    rw [he]
  have herasene : (splitPipe t2).erase "undefined" ≠ [] := by
    have := List.length_erase_of_mem hmem2
    intro hx
    rw [hx] at this
    simp at this
    omega
  have hne : joinPipe ((splitPipe t2).erase "undefined") ≠ "undefined" :=
    joinPipe_ne_undefined _ herasene hnotmem
  refine ⟨?_, hnotmem⟩
  rw [processField, hpass2, Option.some_bind, stripUndefinedMarkOptional]
  rw [if_neg (by simp [hunion, hinc])]
  rw [hrm, Option.map_some', undefinedToAny_noop _ _ _ hne]

/-- Witness for C2: the field type `string | undefined` becomes `string` and
the field turns optional. -/
theorem unionWithUndefined_witness :
    processField ([] : List NameEntry) ("k", "string | undefined") = some
      ((if false then "k" else "k" ++ "?"),
       joinPipe ((splitPipe "string | undefined").erase "undefined"), false) ∧
    "undefined" ∉ (splitPipe "string | undefined").erase "undefined" :=
  unionWithUndefined_normalization [("k", "string | undefined")] []
    [("k?", "string")] (by decide)
    ("k", "string | undefined") (List.mem_singleton.mpr rfl)
    "k" "string | undefined" false (by decide) (by decide) (by decide)
    (by decide) (by decide) (by decide)

/-- **C10**: a field whose resolved display type is a non-array union that
contains the text `undefined` only inside a member's name (no exact
`undefined` member) still triggers the removal pass: `indexOf` yields `-1`,
`splice(-1, 1)` removes the *last* member, and the field is marked
optional. -/
theorem unionWithUndefinedSubstring_removes_last
    (typeObj : List (String × String)) (names : List NameEntry)
    (out : List (String × String))
    (h : replaceTypeObjIdsWithNames typeObj names = some out)
    (kt : String × String) (hmem : kt ∈ typeObj)
    (k2 t2 : String) (b2 : Bool)
    (hpass2 : replaceHashWithName names (quoteInvalidAndMarkOptional kt)
      = some (k2, some t2, b2))
    (hunion : isNonArrayUnion t2 = true)
    (hinc : strIncludes t2 "undefined" = true)
    (hmem2 : "undefined" ∉ splitPipe t2)
    (hlen : 2 ≤ (splitPipe t2).length) :
    processField names kt = some
      ((if b2 then k2 else k2 ++ "?"),
       joinPipe ((splitPipe t2).dropLast), b2) := by
  have hfi : (splitPipe t2).findIdx? (fun t => t == "undefined") = none := by
    rw [List.findIdx?_eq_none_iff]
    intro x hx
    simp only [beq_eq_false_iff_ne, ne_eq]
    intro hxeq
    exact hmem2 (hxeq ▸ hx)
  have hrm : removeUndefinedFromUnion t2 = joinPipe ((splitPipe t2).dropLast) := by
    rw [removeUndefinedFromUnion, hfi]
  have hdropne : (splitPipe t2).dropLast ≠ [] := by
    have hld := List.length_dropLast (splitPipe t2)
    intro hx
    rw [hx] at hld
    simp at hld
    omega
  have hnotmem : "undefined" ∉ (splitPipe t2).dropLast := by
    intro hx
    exact hmem2 (List.dropLast_subset _ hx)
  have hne : joinPipe ((splitPipe t2).dropLast) ≠ "undefined" :=
    joinPipe_ne_undefined _ hdropne hnotmem
  rw [processField, hpass2, Option.some_bind, stripUndefinedMarkOptional]
  rw [if_neg (by simp [hunion, hinc])]
  rw [hrm, Option.map_some', undefinedToAny_noop _ _ _ hne]

/-! ### The name-list invariant of the name assigner -/

/-- An entry whose id resolves to an object descriptor (the group used by
`getNameById`'s object branch). -/
def isObjEntryB (types : List TypeDescription) (e : NameEntry) : Bool :=
  match findTypeById e.id types with
  | some d => d.arrayOfTypes.isNone
  | none => false

/-- The recording discipline: an entry recorded later (`b`) for an object
shape with a defined name never repeats any earlier entry's name. -/
def recordOk (types : List TypeDescription) (a b : NameEntry) : Prop :=
  (isObjEntryB types b = true ∧ b.name.isSome = true) → b.name ≠ a.name

/-- Invariant of the mutable name list: the recording discipline holds
pairwise in insertion order, and every recorded id is a structural digest. -/
def NamesInv (types : List TypeDescription) (names : List NameEntry) : Prop :=
  names.Pairwise (recordOk types) ∧ ∀ e ∈ names, isHash e.id = true

/-- The primitive ShapeId tokens of the data model. -/
def primitiveTokens : List String :=
  ["string", "number", "boolean", "null", "undefined", "any"]

lemma contains_false_forall {α : Type} [BEq α] [LawfulBEq α] (l : List α) (x : α)
    (h : l.contains x = false) : ∀ y ∈ l, y ≠ x := by
  intro y hy heq
  rw [heq] at hy
  rw [contains_of_mem hy] at h
  exact Bool.noConfusion h

lemma uniqueByIncrement_not_mem (name : String) (names : List (Option String)) (s : String)
    (h : uniqueByIncrement name names = some s) : names.contains (some s) = false := by
  obtain ⟨m, -, -, -, hfree, -⟩ := uniqueByIncrementGo_some name names 1000 0 s h
  exact hfree

lemma namesInv_append (types : List TypeDescription) (names : List NameEntry) (e : NameEntry)
    (hid : isHash e.id = true)
    (hfresh : isObjEntryB types e = true → e.name.isSome = true →
      ∀ a ∈ names, e.name ≠ a.name)
    (hinv : NamesInv types names) : NamesInv types (names ++ [e]) := by
  constructor
  · rw [List.pairwise_append]
    refine ⟨hinv.1, List.pairwise_singleton _ _, ?_⟩
    intro a ha b hb
    rw [List.mem_singleton] at hb
    subst hb
    intro hob
    exact hfresh hob.1 hob.2 a ha
  · intro x hx
    rcases List.mem_append.mp hx with hx1 | hx1
    · exact hinv.2 x hx1
    · rw [List.mem_singleton] at hx1
      subst hx1
      exact hid

lemma getNameById_step (fuel : Nat) (id : String) (keyName : Option String)
    (inArr : Bool) (types : List TypeDescription) (nameMap : List NameEntry) :
    getNameById (fuel + 1) id keyName inArr types nameMap =
      match nameMap.find? (fun e => e.id == id) with
      | some nameEntry => some (nameEntry.name, nameMap)
      | none =>
        match findTypeById id types with
        | some d =>
          if d.arrayOfTypes.isSome then
            (if d.isUnion then getArrayName fuel d types nameMap
             else formatArrayName fuel d types nameMap).bind
              (fun r => some (r.1, r.2 ++ [NameEntry.mk id r.1]))
          else
            match keyName with
            | none => none
            | some k =>
              some (uniqueByIncrement (deriveObjectName k inArr)
                  (nameMap.map (fun e => e.name)),
                nameMap ++ [NameEntry.mk id (uniqueByIncrement (deriveObjectName k inArr)
                  (nameMap.map (fun e => e.name)))])
        | none => some (none, nameMap ++ [NameEntry.mk id none]) := rfl

lemma getName_step (fuel : Nat) (rootTypeId : String) (types : List TypeDescription)
    (keyName : String) (names : List NameEntry) (inArr : Bool) :
    getName (fuel + 1) rootTypeId types keyName names inArr =
      match getTypeDescriptionGroup (types.find? (fun d => d.id == rootTypeId)) with
      | TypeGroup.Array =>
        match types.find? (fun d => d.id == rootTypeId) with
        | some d =>
          match d.arrayOfTypes with
          | some items =>
            (getNameArrayItems fuel items 0 types keyName names).bind
              (fun names1 => getNameById fuel d.id (some keyName) inArr types names1)
          | none => none
        | none => none
      | TypeGroup.Object =>
        match types.find? (fun d => d.id == rootTypeId) with
        | some d =>
          match d.typeObj with
          | some fields =>
            (getNameObjectFields fuel fields types names).bind
              (fun names1 => getNameById fuel d.id (some keyName) inArr types names1)
          | none => none
        | none => none
      | TypeGroup.Primitive => some (some rootTypeId, names) := rfl

lemma formatArrayName_step (fuel : Nat) (typeDesc : TypeDescription)
    (types : List TypeDescription) (nameMap : List NameEntry) :
    formatArrayName (fuel + 1) typeDesc types nameMap =
      match typeDesc.arrayOfTypes with
      | none => none
      | some items =>
        match items.head? with
        | none => none
        | some innerTypeId =>
          (isMultipleTypeArrayCheck innerTypeId types).bind (fun isMultipleTypeArray =>
            (getArrayName fuel typeDesc types nameMap).bind (fun r =>
              some (some (if isMultipleTypeArray then "(" ++ tsStr r.1 ++ ")[]"
                          else tsStr r.1 ++ "[]"), r.2))) := rfl

lemma getArrayName_step (fuel : Nat) (typeDesc : TypeDescription)
    (types : List TypeDescription) (nameMap : List NameEntry) :
    getArrayName (fuel + 1) typeDesc types nameMap =
      match typeDesc.arrayOfTypes with
      | none => none
      | some [] => some (some "any", nameMap)
      | some [idOrPrimitive] => convertToReadableType fuel idOrPrimitive types nameMap
      | some _ => unionToString fuel typeDesc types nameMap := rfl

lemma namesInv_preserved (types : List TypeDescription)
    (H : ∀ d ∈ types, isHash d.id = true) :
    ∀ fuel,
      (∀ rootTypeId keyName names inArr v names2,
        getName fuel rootTypeId types keyName names inArr = some (v, names2) →
        NamesInv types names → NamesInv types names2) ∧
      (∀ items i keyName names names2,
        getNameArrayItems fuel items i types keyName names = some names2 →
        NamesInv types names → NamesInv types names2) ∧
      (∀ fields names names2,
        getNameObjectFields fuel fields types names = some names2 →
        NamesInv types names → NamesInv types names2) ∧
      (∀ id keyName inArr nameMap v names2, isHash id = true →
        getNameById fuel id keyName inArr types nameMap = some (v, names2) →
        NamesInv types nameMap → NamesInv types names2) ∧
      (∀ d nameMap v names2, getArrayName fuel d types nameMap = some (v, names2) →
        NamesInv types nameMap → NamesInv types names2) ∧
      (∀ s nameMap v names2, convertToReadableType fuel s types nameMap = some (v, names2) →
        NamesInv types nameMap → NamesInv types names2) ∧
      (∀ d nameMap v names2, unionToString fuel d types nameMap = some (v, names2) →
        NamesInv types nameMap → NamesInv types names2) ∧
      (∀ items i acc nameMap v names2,
        unionToStringItems fuel items i acc types nameMap = some (v, names2) →
        NamesInv types nameMap → NamesInv types names2) ∧
      (∀ d nameMap v names2, formatArrayName fuel d types nameMap = some (v, names2) →
        NamesInv types nameMap → NamesInv types names2) := by
  intro fuel
  induction fuel with
  | zero =>
    refine ⟨?_, ?_, ?_, ?_, ?_, ?_, ?_, ?_, ?_⟩
    · intro a k n i v n2 h _
      exact Option.noConfusion h
    · intro it i k n n2 h _
      exact Option.noConfusion h
    · intro f n n2 h _
      exact Option.noConfusion h
    · intro a k i n v n2 _ h _
      exact Option.noConfusion h
    · intro d n v n2 h _
      exact Option.noConfusion h
    · intro s n v n2 h _
      exact Option.noConfusion h
    · intro d n v n2 h _
      exact Option.noConfusion h
    · intro it i a n v n2 h _
      exact Option.noConfusion h
    · intro d n v n2 h _
      exact Option.noConfusion h
  | succ fuel ih =>
    obtain ⟨ihName, ihItems, ihFields, ihById, ihArr, ihConv, ihUnion, ihUnionItems,
      ihFormat⟩ := ih
    have hById : ∀ id keyName inArr nameMap v names2, isHash id = true →
        getNameById (fuel + 1) id keyName inArr types nameMap = some (v, names2) →
        NamesInv types nameMap → NamesInv types names2 := by
      intro id keyName inArr nameMap v names2 hid hcall hinv
      rw [getNameById_step] at hcall
      cases hmemo : nameMap.find? (fun e => e.id == id) with
      | some e =>
        simp only [hmemo] at hcall
        simp only [Option.some.injEq, Prod.mk.injEq] at hcall
        rw [← hcall.2]
        exact hinv
      | none =>
        simp only [hmemo] at hcall
        cases hfind : findTypeById id types with
        | none =>
          simp only [hfind] at hcall
          simp only [Option.some.injEq, Prod.mk.injEq] at hcall
          rw [← hcall.2]
          refine namesInv_append types nameMap ⟨id, none⟩ hid ?_ hinv
          intro _ hs
          exact absurd hs (by simp)
        | some d =>
          simp only [hfind] at hcall
          by_cases harr : d.arrayOfTypes.isSome = true
          · rw [if_pos harr] at hcall
            have hfinish : ∀ r : Option String × List NameEntry,
                NamesInv types r.2 →
                some (r.1, r.2 ++ [NameEntry.mk id r.1]) = some (v, names2) →
                NamesInv types names2 := by
              intro r hr hr2
              simp only [Option.some.injEq, Prod.mk.injEq] at hr2
              rw [← hr2.2]
              refine namesInv_append types r.2 ⟨id, r.1⟩ hid ?_ hr
              intro hob _
              simp only [isObjEntryB, hfind] at hob
              rw [Option.isNone_iff_eq_none] at hob
              rw [hob] at harr
              exact Bool.noConfusion harr
            cases hu : d.isUnion with
            | true =>
              rw [hu] at hcall
              simp only [if_true] at hcall
              cases hg : getArrayName fuel d types nameMap with
              | none => rw [hg] at hcall; exact Option.noConfusion hcall
              | some r =>
                rw [hg] at hcall
                simp only [Option.some_bind] at hcall
                exact hfinish r (ihArr d nameMap r.1 r.2 (by rw [hg]) hinv) hcall
            | false =>
              rw [hu] at hcall
              simp only [Bool.false_eq_true, if_false] at hcall
              cases hg : formatArrayName fuel d types nameMap with
              | none => rw [hg] at hcall; exact Option.noConfusion hcall
              | some r =>
                rw [hg] at hcall
                simp only [Option.some_bind] at hcall
                exact hfinish r (ihFormat d nameMap r.1 r.2 (by rw [hg]) hinv) hcall
          · rw [if_neg harr] at hcall
            cases keyName with
            | none => exact Option.noConfusion hcall
            | some k =>
              simp only [Option.some.injEq, Prod.mk.injEq] at hcall
              rw [← hcall.2]
              refine namesInv_append types nameMap
                ⟨id, uniqueByIncrement (deriveObjectName k inArr)
                  (nameMap.map (fun e => e.name))⟩ hid ?_ hinv
              intro _ hs
              cases hui : uniqueByIncrement (deriveObjectName k inArr)
                  (nameMap.map (fun e => e.name)) with
              | none => rw [hui] at hs; exact absurd hs (by simp)
              | some s =>
                intro a ha
                have hcf := contains_false_forall _ _
                  (uniqueByIncrement_not_mem _ _ _ hui) a.name
                  (List.mem_map.mpr ⟨a, ha, rfl⟩)
                exact fun hx => hcf hx.symm
    have hConv : ∀ s nameMap v names2,
        convertToReadableType (fuel + 1) s types nameMap = some (v, names2) →
        NamesInv types nameMap → NamesInv types names2 := by
      intro s nameMap v names2 hcall hinv
      rw [convertToReadableType] at hcall
      by_cases hh : isHash s = true
      · rw [if_pos hh] at hcall
        exact ihById s none true nameMap v names2 hh hcall hinv
      · rw [if_neg hh] at hcall
        simp only [Option.some.injEq, Prod.mk.injEq] at hcall
        rw [← hcall.2]
        exact hinv
    have hArr : ∀ d nameMap v names2,
        getArrayName (fuel + 1) d types nameMap = some (v, names2) →
        NamesInv types nameMap → NamesInv types names2 := by
      intro d nameMap v names2 hcall hinv
      rw [getArrayName_step] at hcall
      cases harr : d.arrayOfTypes with
      | none => simp only [harr] at hcall; exact Option.noConfusion hcall
      | some items =>
        simp only [harr] at hcall
        match items, hcall with
        | [], hcall =>
          simp only [Option.some.injEq, Prod.mk.injEq] at hcall
          rw [← hcall.2]
          exact hinv
        | [one], hcall => exact ihConv one nameMap v names2 hcall hinv
        | a :: b :: rest, hcall => exact ihUnion d nameMap v names2 hcall hinv
    have hUnionItems : ∀ items i acc nameMap v names2,
        unionToStringItems (fuel + 1) items i acc types nameMap = some (v, names2) →
        NamesInv types nameMap → NamesInv types names2 := by
      intro items i acc nameMap v names2 hcall hinv
      cases items with
      | nil =>
        rw [unionToStringItems] at hcall
        simp only [Option.some.injEq, Prod.mk.injEq] at hcall
        rw [← hcall.2]
        exact hinv
      | cons ty rest =>
        rw [unionToStringItems] at hcall
        cases hc : convertToReadableType fuel ty types nameMap with
        | none => rw [hc] at hcall; exact Option.noConfusion hcall
        | some r =>
          rw [hc] at hcall
          simp only [Option.some_bind] at hcall
          exact ihUnionItems rest (i + 1) _ r.2 v names2 hcall
            (ihConv ty nameMap r.1 r.2 (by rw [hc]) hinv)
    have hUnion : ∀ d nameMap v names2,
        unionToString (fuel + 1) d types nameMap = some (v, names2) →
        NamesInv types nameMap → NamesInv types names2 := by
      intro d nameMap v names2 hcall hinv
      rw [unionToString] at hcall
      cases harr : d.arrayOfTypes with
      | none => simp only [harr] at hcall; exact Option.noConfusion hcall
      | some items =>
        simp only [harr] at hcall
        exact ihUnionItems items 0 (some "") nameMap v names2 hcall hinv
    have hFormat : ∀ d nameMap v names2,
        formatArrayName (fuel + 1) d types nameMap = some (v, names2) →
        NamesInv types nameMap → NamesInv types names2 := by
      intro d nameMap v names2 hcall hinv
      rw [formatArrayName_step] at hcall
      cases harr : d.arrayOfTypes with
      | none => simp only [harr] at hcall; exact Option.noConfusion hcall
      | some items =>
        simp only [harr] at hcall
        cases hh : items.head? with
        | none => simp only [hh] at hcall; exact Option.noConfusion hcall
        | some innerTypeId =>
          simp only [hh] at hcall
          cases hm : isMultipleTypeArrayCheck innerTypeId types with
          | none => simp only [hm] at hcall; exact Option.noConfusion hcall
          | some im =>
            simp only [hm] at hcall
            simp only [Option.some_bind] at hcall
            cases hg : getArrayName fuel d types nameMap with
            | none => rw [hg] at hcall; exact Option.noConfusion hcall
            | some r =>
              rw [hg] at hcall
              simp only [Option.some_bind, Option.some.injEq, Prod.mk.injEq] at hcall
              rw [← hcall.2]
              exact ihArr d nameMap r.1 r.2 (by rw [hg]) hinv
    have hItems : ∀ items i keyName names names2,
        getNameArrayItems (fuel + 1) items i types keyName names = some names2 →
        NamesInv types names → NamesInv types names2 := by
      intro items i keyName names names2 hcall hinv
      cases items with
      | nil =>
        rw [getNameArrayItems] at hcall
        simp only [Option.some.injEq] at hcall
        rw [← hcall]
        exact hinv
      | cons t rest =>
        rw [getNameArrayItems] at hcall
        cases hg : getName fuel t types
            (if i == 0 then keyName else keyName ++ toString (i + 1)) names true with
        | none => rw [hg] at hcall; exact Option.noConfusion hcall
        | some r =>
          rw [hg] at hcall
          simp only [Option.bind_eq_bind, Option.some_bind] at hcall
          exact ihItems rest (i + 1) keyName r.2 names2 hcall
            (ihName t _ names true r.1 r.2 (by rw [hg]) hinv)
    have hFields : ∀ fields names names2,
        getNameObjectFields (fuel + 1) fields types names = some names2 →
        NamesInv types names → NamesInv types names2 := by
      intro fields names names2 hcall hinv
      cases fields with
      | nil =>
        rw [getNameObjectFields] at hcall
        simp only [Option.some.injEq] at hcall
        rw [← hcall]
        exact hinv
      | cons kv rest =>
        obtain ⟨key, value⟩ := kv
        rw [getNameObjectFields] at hcall
        cases hg : getName fuel value types key names false with
        | none => rw [hg] at hcall; exact Option.noConfusion hcall
        | some r =>
          rw [hg] at hcall
          simp only [Option.bind_eq_bind, Option.some_bind] at hcall
          exact ihFields rest r.2 names2 hcall
            (ihName value key names false r.1 r.2 (by rw [hg]) hinv)
    have hName : ∀ rootTypeId keyName names inArr v names2,
        getName (fuel + 1) rootTypeId types keyName names inArr = some (v, names2) →
        NamesInv types names → NamesInv types names2 := by
      intro rootTypeId keyName names inArr v names2 hcall hinv
      rw [getName_step] at hcall
      cases hfind : types.find? (fun d => d.id == rootTypeId) with
      | none =>
        simp only [hfind, getTypeDescriptionGroup] at hcall
        simp only [Option.some.injEq, Prod.mk.injEq] at hcall
        rw [← hcall.2]
        exact hinv
      | some d =>
        have hdid : isHash d.id = true := H d (List.mem_of_find?_eq_some hfind)
        cases harr : d.arrayOfTypes with
        | some items =>
          simp only [hfind, getTypeDescriptionGroup, harr, Option.isSome_some,
            if_true] at hcall
          cases h1 : getNameArrayItems fuel items 0 types keyName names with
          | none => rw [h1] at hcall; exact Option.noConfusion hcall
          | some names1 =>
            rw [h1] at hcall
            simp only [Option.some_bind] at hcall
            exact ihById d.id (some keyName) inArr names1 v names2 hdid hcall
              (ihItems items 0 keyName names names1 h1 hinv)
        | none =>
          simp only [hfind, getTypeDescriptionGroup, harr, Option.isSome_none,
            Bool.false_eq_true, if_false] at hcall
          cases hobj : d.typeObj with
          | none => simp only [hobj] at hcall; exact Option.noConfusion hcall
          | some fields =>
            simp only [hobj] at hcall
            cases h1 : getNameObjectFields fuel fields types names with
            | none => rw [h1] at hcall; exact Option.noConfusion hcall
            | some names1 =>
              rw [h1] at hcall
              simp only [Option.some_bind] at hcall
              exact ihById d.id (some keyName) inArr names1 v names2 hdid hcall
                (ihFields fields names names1 h1 hinv)
    exact ⟨hName, hItems, hFields, hById, hArr, hConv, hUnion, hUnionItems, hFormat⟩

/-- Witness for C10: the union `A | B_undefined1` (no exact `undefined`
member) loses its last member `B_undefined1` and the field turns optional. -/
theorem unionWithUndefinedSubstring_witness :
    processField ([] : List NameEntry) ("k", "A | B_undefined1") = some
      ((if false then "k" else "k" ++ "?"),
       joinPipe ((splitPipe "A | B_undefined1").dropLast), false) :=
  unionWithUndefinedSubstring_removes_last [("k", "A | B_undefined1")] []
    [("k?", "A")] (by decide)
    ("k", "A | B_undefined1") (List.mem_singleton.mpr rfl)
    "k" "A | B_undefined1" false (by decide) (by decide) (by decide)
    (by decide) (by decide)

/-- The naming walk starts from an empty name list, so the recording
discipline and the digest property hold of every `getNames` result (stated on
the reversed, root-first list). -/
lemma getNames_inv (ts : TypeStructure) (rootName : String) (fuel : Nat)
    (result : List NameEntry)
    (H : ∀ d ∈ ts.types, isHash d.id = true)
    (h : getNames fuel ts rootName = some result) :
    result.Pairwise (fun a b =>
      (isObjEntryB ts.types a = true ∧ a.name.isSome = true) → a.name ≠ b.name) ∧
    ∀ e ∈ result, isHash e.id = true := by
  rw [getNames] at h
  cases hg : getName fuel ts.rootTypeId ts.types rootName [] false with
  | none => rw [hg] at h; exact Option.noConfusion h
  | some r =>
    rw [hg] at h
    simp only [Option.map_some', Option.some.injEq] at h
    subst h
    have hinv : NamesInv ts.types r.2 :=
      (namesInv_preserved ts.types H fuel).1 ts.rootTypeId rootName [] false r.1 r.2 hg
        ⟨List.Pairwise.nil, by intro e he; exact absurd he (List.not_mem_nil e)⟩
    constructor
    · rw [List.pairwise_reverse]
      exact hinv.1
    · intro e he
      exact hinv.2 e (List.mem_reverse.mp he)

/-- C6 (corrected): in every run of the name assigner over a structure whose
descriptor ids are all structural digests, an entry recorded for an *object*
shape with a defined name never shares its identifier with any other entry
(entries recorded for array shapes may repeat identifiers — see the
counterexample), and no entry is ever recorded for a primitive token. -/
theorem nameAssigner_record_discipline (ts : TypeStructure) (rootName : String)
    (fuel : Nat) (result : List NameEntry)
    (H : ∀ d ∈ ts.types, isHash d.id = true)
    (h : getNames fuel ts rootName = some result) :
    result.Pairwise (fun a b =>
      (isObjEntryB ts.types a = true ∧ a.name.isSome = true) → a.name ≠ b.name) ∧
    ∀ e ∈ result, e.id ∉ primitiveTokens := by
  obtain ⟨hpw, hid⟩ := getNames_inv ts rootName fuel result H h
  refine ⟨hpw, ?_⟩
  intro e he hp
  have hh := hid e he
  simp only [primitiveTokens, List.mem_cons, List.not_mem_nil, or_false] at hp
  rcases hp with h1 | h1 | h1 | h1 | h1 | h1 <;> rw [h1] at hh <;>
    exact absurd hh (by decide)

/-- A 40-character digest for the C6 witness structure. -/
def c6WitnessId : String := String.mk (List.replicate 40 'w')

/-- A one-object structure for the C6 witness. -/
def c6WitnessTS : TypeStructure :=
  TypeStructure.mk c6WitnessId
    [TypeDescription.mk c6WitnessId (some [("a", "number")]) none false]

theorem nameAssigner_record_discipline_witness :
    ([NameEntry.mk c6WitnessId (some "RootObject")].Pairwise (fun a b =>
      (isObjEntryB c6WitnessTS.types a = true ∧ a.name.isSome = true) →
        a.name ≠ b.name) ∧
    ∀ e ∈ [NameEntry.mk c6WitnessId (some "RootObject")],
      e.id ∉ primitiveTokens) :=
  nameAssigner_record_discipline c6WitnessTS "RootObject" 10
    [NameEntry.mk c6WitnessId (some "RootObject")] (by decide) (by decide)

/-- Digest of the inner `number | string` array shape in the C6
counterexample. -/
def c6IdInner : String := "iiiiiiiiiiiiiiiiiiiiiiiiiiiiiiiiiiiiiii1"

/-- Digest of the first outer array shape in the C6 counterexample. -/
def c6IdP : String := "ppppppppppppppppppppppppppppppppppppppp1"

/-- Digest of the second outer array shape in the C6 counterexample. -/
def c6IdQ : String := "qqqqqqqqqqqqqqqqqqqqqqqqqqqqqqqqqqqqqqq1"

/-- Digest of the root object in the C6 counterexample. -/
def c6IdRoot : String := "rrrrrrrrrrrrrrrrrrrrrrrrrrrrrrrrrrrrrrr1"

/-- The C6 counterexample structure: a root object with two array-valued
fields whose element unions flatten to the same member set (one via a nested
array shape, one directly). -/
def c6Structure : TypeStructure :=
  TypeStructure.mk c6IdRoot
    [ TypeDescription.mk c6IdInner none (some ["number", "string"]) true,
      TypeDescription.mk c6IdP none (some [c6IdInner, "boolean"]) true,
      TypeDescription.mk c6IdQ none (some ["number", "string", "boolean"]) true,
      TypeDescription.mk c6IdRoot (some [("p", c6IdP), ("q", c6IdQ)]) none false ]

/-- Counterexample to C6 as stated: all descriptor ids are digests, yet the
run records the identifier `number | string | boolean` for two distinct
entries, so the recorded identifiers are not pairwise distinct. -/
theorem nameAssigner_duplicate_identifiers_cex :
    (∀ d ∈ c6Structure.types, isHash d.id = true) ∧
    getNames 50 c6Structure "RootObject" = some
      [ NameEntry.mk c6IdRoot (some "RootObject"),
        NameEntry.mk c6IdQ (some "number | string | boolean"),
        NameEntry.mk c6IdP (some "number | string | boolean"),
        NameEntry.mk c6IdInner (some "number | string") ] ∧
    ¬ ([ NameEntry.mk c6IdRoot (some "RootObject"),
         NameEntry.mk c6IdQ (some "number | string | boolean"),
         NameEntry.mk c6IdP (some "number | string | boolean"),
         NameEntry.mk c6IdInner (some "number | string") ].map
        (fun e => e.name)).Nodup :=
  ⟨by decide, by decide, by decide⟩

/-- A rendered declaration carries the `export` qualifier exactly when it
begins with the characters `export `. -/
def carriesExport (s : String) : Bool :=
  ("export ".data).isPrefixOf s.data

lemma carriesExport_render_true (name : Option String) (tm : List (String × String)) :
    carriesExport (getInterfaceStringFromDescription name tm true) = true := rfl

lemma carriesExport_render_false (name : Option String) (tm : List (String × String)) :
    carriesExport (getInterfaceStringFromDescription name tm false) = false := rfl

/-- The rendered block carries `export` exactly when the root flag is set. -/
lemma carriesExport_render (name : Option String) (tm : List (String × String))
    (b : Bool) :
    carriesExport (getInterfaceStringFromDescription name tm b) = b := by
  cases b
  · exact carriesExport_render_false name tm
  · exact carriesExport_render_true name tm

/-- A root-flagged block is rendered as `export interface <name> {` followed
by the member lines and the closing brace. -/
lemma render_true_shape (rootName : String) (tm : List (String × String)) :
    ∃ body, getInterfaceStringFromDescription (some rootName) tm true =
      "export interface " ++ rootName ++ (" \x7b\n" ++ body) := by
  refine ⟨tm.foldl (fun a kv => a ++ "  " ++ kv.1 ++ ": " ++ kv.2 ++ ";\n") ""
    ++ "\x7d", ?_⟩
  simp [getInterfaceStringFromDescription, tsStr, String.append_assoc]

/-- Well-formedness of a builder-produced descriptor: its id is a structural
digest, and it is an object descriptor or an array descriptor but not both. -/
def DescWF (d : TypeDescription) : Prop :=
  isHash d.id = true ∧ ¬(d.typeObj.isSome = true ∧ d.arrayOfTypes.isSome = true)

lemma isHash_digestOfIndex (n : Nat) : isHash (digestOfIndex n) = true := by
  have h : (digestOfIndex n).length = 40 := by
    show ((List.range 40).map (fun i => Nat.digitChar (n / 10 ^ i % 10))).length = 40
    rw [List.length_map, List.length_range]
  rw [isHash, h]
  rfl

lemma insertShape_wf (tObj : Option (List (String × String)))
    (aTypes : Option (List String)) (iu : Bool) (ts : List TypeDescription)
    (hw : ¬(tObj.isSome = true ∧ aTypes.isSome = true))
    (hts : ∀ d ∈ ts, DescWF d) :
    ∀ d ∈ (insertShape tObj aTypes iu ts).2, DescWF d := by
  intro d hd
  rw [insertShape] at hd
  cases hf : ts.find? (fun d =>
      d.typeObj == tObj && d.arrayOfTypes == aTypes && d.isUnion == iu) with
  | some d2 =>
    simp only [hf] at hd
    exact hts d hd
  | none =>
    simp only [hf] at hd
    rcases List.mem_append.mp hd with h1 | h1
    · exact hts d h1
    · rw [List.mem_singleton] at h1
      subst h1
      exact ⟨isHash_digestOfIndex _, hw⟩

lemma mergeFieldStep_wf (descs : List TypeDescription)
    (acc : List (String × String) × List TypeDescription) (k : String)
    (hacc : ∀ d ∈ acc.2, DescWF d) :
    ∀ d ∈ (mergeFieldStep descs acc k).2, DescWF d := by
  intro d hd
  rw [mergeFieldStep] at hd
  dsimp only at hd
  split at hd
  · exact hacc d hd
  · exact insertShape_wf none (some _) true acc.2
      (by intro hc; exact Bool.noConfusion hc.1) hacc d hd

lemma mergeObjectFields_wf (descs : List TypeDescription) (keys : List String)
    (ts : List TypeDescription) (hts : ∀ d ∈ ts, DescWF d) :
    ∀ d ∈ (mergeObjectFields descs keys ts).2, DescWF d := by
  rw [mergeObjectFields]
  suffices h : ∀ (ks : List String) (acc : List (String × String) × List TypeDescription),
      (∀ d ∈ acc.2, DescWF d) →
      ∀ d ∈ (ks.foldl (mergeFieldStep descs) acc).2, DescWF d by
    exact h keys ([], ts) hts
  intro ks
  induction ks with
  | nil => intro acc hacc; exact hacc
  | cons k ks ih =>
    intro acc hacc
    rw [List.foldl_cons]
    exact ih _ (mergeFieldStep_wf descs acc k hacc)

/-- The builder walk only ever appends well-formed descriptors. -/
lemma builder_wf (fuel : Nat) :
    (∀ json ts r, getTypeStructureOf fuel json ts = some r →
      (∀ d ∈ ts, DescWF d) → ∀ d ∈ r.2, DescWF d) ∧
    (∀ fields ts r, walkFields fuel fields ts = some r →
      (∀ d ∈ ts, DescWF d) → ∀ d ∈ r.2, DescWF d) ∧
    (∀ elems ts r, walkElems fuel elems ts = some r →
      (∀ d ∈ ts, DescWF d) → ∀ d ∈ r.2, DescWF d) := by
  induction fuel with
  | zero =>
    refine ⟨?_, ?_, ?_⟩
    · intro json ts r h _
      exact Option.noConfusion h
    · intro fields ts r h _
      exact Option.noConfusion h
    · intro elems ts r h _
      exact Option.noConfusion h
  | succ fuel ih =>
    obtain ⟨ihT, ihF, ihE⟩ := ih
    refine ⟨?_, ?_, ?_⟩
    · intro json ts r h hts
      cases json with
      | null =>
        replace h : some (("null", ts) : String × List TypeDescription) = some r := h
        rw [Option.some.injEq] at h
        rw [← h]
        exact hts
      | bool b =>
        replace h : some (("boolean", ts) : String × List TypeDescription) = some r := h
        rw [Option.some.injEq] at h
        rw [← h]
        exact hts
      | num x =>
        replace h : some (("number", ts) : String × List TypeDescription) = some r := h
        rw [Option.some.injEq] at h
        rw [← h]
        exact hts
      | str s =>
        replace h : some (("string", ts) : String × List TypeDescription) = some r := h
        rw [Option.some.injEq] at h
        rw [← h]
        exact hts
      | obj fields =>
        replace h : (walkFields fuel fields ts).map
            (fun r => insertShape (some r.1) none false r.2) = some r := h
        cases hw : walkFields fuel fields ts with
        | none => rw [hw] at h; exact Option.noConfusion h
        | some rw0 =>
          rw [hw] at h
          rw [Option.map_some', Option.some.injEq] at h
          rw [← h]
          exact insertShape_wf (some rw0.1) none false rw0.2
            (by intro hc; exact Bool.noConfusion hc.2)
            (ihF fields ts rw0 hw hts)
      | arr elems =>
        replace h : (walkElems fuel elems ts).map (fun r =>
          let uniqIds := uniqFirst r.1
          let allObjects := !uniqIds.isEmpty && uniqIds.all (fun i =>
            match findTypeById i r.2 with
            | some d => d.typeObj.isSome
            | none => false)
          if allObjects then
            match uniqIds with
            | [single] => insertShape none (some [single]) false r.2
            | _ =>
              let descs := uniqIds.filterMap (fun i => findTypeById i r.2)
              let keys := uniqFirst (descs.foldr (fun d acc =>
                (d.typeObj.getD []).map (fun kv => (parseKeyMetaData kv.1).keyValue)
                  ++ acc) [])
              let m := mergeObjectFields descs keys r.2
              let merged := insertShape (some m.1) none false m.2
              insertShape none (some [merged.1]) false merged.2
          else
            insertShape none (some uniqIds) (uniqIds.length != 1) r.2) = some r := h
        cases he : walkElems fuel elems ts with
        | none => rw [he] at h; exact Option.noConfusion h
        | some re =>
          rw [he] at h
          rw [Option.map_some', Option.some.injEq] at h
          rw [← h]
          have hre : ∀ d ∈ re.2, DescWF d := ihE elems ts re he hts
          intro d hd
          dsimp only at hd
          split at hd
          · split at hd
            · exact insertShape_wf none (some _) false re.2
                (by intro hc; exact Bool.noConfusion hc.1) hre d hd
            · exact insertShape_wf none (some _) false _
                (by intro hc; exact Bool.noConfusion hc.1)
                (insertShape_wf (some _) none false _
                  (by intro hc; exact Bool.noConfusion hc.2)
                  (mergeObjectFields_wf _ _ re.2 hre)) d hd
          · exact insertShape_wf none (some _) _ re.2
              (by intro hc; exact Bool.noConfusion hc.1) hre d hd
    · intro fields ts r h hts
      cases fields with
      | nil =>
        replace h : some (([], ts) : List (String × String) × List TypeDescription)
            = some r := h
        rw [Option.some.injEq] at h
        rw [← h]
        exact hts
      | cons kv rest =>
        replace h : (getTypeStructureOf fuel kv.2 ts).bind (fun r0 =>
          (walkFields fuel rest r0.2).bind (fun rs =>
            some ((kv.1, r0.1) :: rs.1, rs.2))) = some r := h
        cases h0 : getTypeStructureOf fuel kv.2 ts with
        | none => rw [h0] at h; exact Option.noConfusion h
        | some r0 =>
          rw [h0] at h
          rw [Option.some_bind] at h
          cases h1 : walkFields fuel rest r0.2 with
          | none => rw [h1] at h; exact Option.noConfusion h
          | some rs =>
            rw [h1] at h
            rw [Option.some_bind, Option.some.injEq] at h
            rw [← h]
            exact ihF rest r0.2 rs h1 (ihT kv.2 ts r0 h0 hts)
    · intro elems ts r h hts
      cases elems with
      | nil =>
        replace h : some (([], ts) : List String × List TypeDescription) = some r := h
        rw [Option.some.injEq] at h
        rw [← h]
        exact hts
      | cons v rest =>
        replace h : (getTypeStructureOf fuel v ts).bind (fun r0 =>
          (walkElems fuel rest r0.2).bind (fun rs =>
            some (r0.1 :: rs.1, rs.2))) = some r := h
        cases h0 : getTypeStructureOf fuel v ts with
        | none => rw [h0] at h; exact Option.noConfusion h
        | some r0 =>
          rw [h0] at h
          rw [Option.some_bind] at h
          cases h1 : walkElems fuel rest r0.2 with
          | none => rw [h1] at h; exact Option.noConfusion h
          | some rs =>
            rw [h1] at h
            rw [Option.some_bind, Option.some.injEq] at h
            rw [← h]
            exact ihE rest r0.2 rs h1 (ihT v ts r0 h0 hts)

/-- Every descriptor produced by `getTypeStructure` is well formed. -/
lemma getTypeStructure_wf (json : Json) (ts0 : TypeStructure)
    (h : getTypeStructure json = some ts0) : ∀ d ∈ ts0.types, DescWF d := by
  rw [getTypeStructure] at h
  cases hg : getTypeStructureOf (jsonSize json) json [] with
  | none => rw [hg] at h; exact Option.noConfusion h
  | some r =>
    rw [hg] at h
    rw [Option.map_some', Option.some.injEq] at h
    rw [← h]
    exact (builder_wf (jsonSize json)).1 json [] r hg
      (by intro d hd; exact absurd hd (List.not_mem_nil d))

/-- The optimizer only deletes descriptors, so well-formedness survives. -/
lemma optimize_wf (ts : TypeStructure) (h : ∀ d ∈ ts.types, DescWF d) :
    ∀ d ∈ (optimizeTypeStructure ts).types, DescWF d := by
  intro d hd
  rw [optimizeTypeStructure] at hd
  dsimp only at hd
  exact h d (List.mem_of_mem_filter hd)

lemma findTypeById_mem (id : String) (types : List TypeDescription)
    (d : TypeDescription) (h : findTypeById id types = some d) : d ∈ types := by
  rw [findTypeById] at h
  exact List.mem_of_find?_eq_some h

/-- A name entry that yields an interface description names it after itself
and refers to an object descriptor (given builder well-formedness). -/
lemma descriptionOfEntry_some (ts : TypeStructure) (names : List NameEntry)
    (a : NameEntry) (d0 : InterfaceDescription)
    (W : ∀ d ∈ ts.types, ¬(d.typeObj.isSome = true ∧ d.arrayOfTypes.isSome = true))
    (h : descriptionOfEntry ts names a = some (some d0)) :
    d0.name = a.name ∧ isObjEntryB ts.types a = true := by
  rw [descriptionOfEntry] at h
  cases hft : findTypeById a.id ts.types with
  | none => rw [hft] at h; exact Option.noConfusion h
  | some td =>
    rw [hft] at h
    rw [Option.some_bind] at h
    cases hobj : td.typeObj with
    | none =>
      simp only [hobj, Option.some.injEq] at h
      exact Option.noConfusion h
    | some tObj =>
      simp only [hobj] at h
      cases hrep : replaceTypeObjIdsWithNames tObj names with
      | none => rw [hrep] at h; exact Option.noConfusion h
      | some tm =>
        rw [hrep] at h
        rw [Option.map_some', Option.some.injEq, Option.some.injEq] at h
        constructor
        · rw [← h]
        · have hmem := findTypeById_mem a.id ts.types td hft
          have hnone : td.arrayOfTypes.isNone = true := by
            cases harr : td.arrayOfTypes with
            | none => rfl
            | some l =>
              exact absurd ⟨by rw [hobj]; rfl, by rw [harr]; rfl⟩ (W td hmem)
          rw [isObjEntryB, hft]
          exact hnone

/-- Every produced interface description is named after one of the walked
name entries, and that entry refers to an object descriptor. -/
lemma descriptions_from_entries (ts : TypeStructure) (names : List NameEntry)
    (W : ∀ d ∈ ts.types, ¬(d.typeObj.isSome = true ∧ d.arrayOfTypes.isSome = true)) :
    ∀ (lst : List NameEntry) (os : List (Option InterfaceDescription)),
      mapFields (descriptionOfEntry ts names) lst = some os →
      ∀ dd ∈ os.filterMap id, ∃ e ∈ lst,
        dd.name = e.name ∧ isObjEntryB ts.types e = true := by
  intro lst
  induction lst with
  | nil =>
    intro os hos dd hdd
    rw [mapFields, Option.some.injEq] at hos
    rw [← hos] at hdd
    exact absurd hdd (List.not_mem_nil dd)
  | cons a as ih =>
    intro os hos dd hdd
    rw [mapFields] at hos
    cases hfa : descriptionOfEntry ts names a with
    | none => rw [hfa] at hos; exact Option.noConfusion hos
    | some oa =>
      rw [hfa] at hos
      rw [Option.some_bind] at hos
      cases has : mapFields (descriptionOfEntry ts names) as with
      | none => rw [has] at hos; exact Option.noConfusion hos
      | some oss =>
        rw [has] at hos
        rw [Option.map_some', Option.some.injEq] at hos
        rw [← hos] at hdd
        cases oa with
        | none =>
          replace hdd : dd ∈ List.filterMap id oss := hdd
          obtain ⟨e, he, hp⟩ := ih oss has dd hdd
          exact ⟨e, List.mem_cons_of_mem a he, hp⟩
        | some d0 =>
          replace hdd : dd ∈ d0 :: List.filterMap id oss := hdd
          rcases List.mem_cons.mp hdd with h1 | h1
          · obtain ⟨hn, hobj⟩ := descriptionOfEntry_some ts names a d0 W hfa
            exact ⟨a, List.mem_cons_self a as, by rw [h1]; exact hn, hobj⟩
          · obtain ⟨e, he, hp⟩ := ih oss has dd h1
            exact ⟨e, List.mem_cons_of_mem a he, hp⟩

/-- Under the recording discipline, at most one produced description is named
exactly the configured root name. -/
lemma descriptions_rootName_count (ts : TypeStructure) (names : List NameEntry)
    (rootName : String)
    (W : ∀ d ∈ ts.types, ¬(d.typeObj.isSome = true ∧ d.arrayOfTypes.isSome = true)) :
    ∀ (lst : List NameEntry) (os : List (Option InterfaceDescription)),
      mapFields (descriptionOfEntry ts names) lst = some os →
      lst.Pairwise (fun a b =>
        (isObjEntryB ts.types a = true ∧ a.name.isSome = true) → a.name ≠ b.name) →
      ((os.filterMap id).filter (fun dd => dd.name == some rootName)).length ≤ 1 := by
  intro lst
  induction lst with
  | nil =>
    intro os hos _
    rw [mapFields, Option.some.injEq] at hos
    rw [← hos]
    exact Nat.le_of_lt Nat.one_pos
  | cons a as ih =>
    intro os hos hpw
    rw [List.pairwise_cons] at hpw
    obtain ⟨hpa, hpwas⟩ := hpw
    rw [mapFields] at hos
    cases hfa : descriptionOfEntry ts names a with
    | none => rw [hfa] at hos; exact Option.noConfusion hos
    | some oa =>
      rw [hfa] at hos
      rw [Option.some_bind] at hos
      cases has : mapFields (descriptionOfEntry ts names) as with
      | none => rw [has] at hos; exact Option.noConfusion hos
      | some oss =>
        rw [has] at hos
        rw [Option.map_some', Option.some.injEq] at hos
        rw [← hos]
        cases oa with
        | none =>
          show ((List.filterMap id oss).filter
            (fun dd => dd.name == some rootName)).length ≤ 1
          exact ih oss has hpwas
        | some d0 =>
          show ((d0 :: List.filterMap id oss).filter
            (fun dd => dd.name == some rootName)).length ≤ 1
          cases hb : (d0.name == some rootName) with
          | false =>
            rw [List.filter_cons_of_neg (by rw [hb]; exact Bool.noConfusion)]
            exact ih oss has hpwas
          | true =>
            rw [List.filter_cons_of_pos (by rw [hb])]
            obtain ⟨hn, hobj⟩ := descriptionOfEntry_some ts names a d0 W hfa
            have hroot : a.name = some rootName := by
              rw [← hn]
              exact eq_of_beq hb
            have hnone : (oss.filterMap id).filter
                (fun dd => dd.name == some rootName) = [] := by
              rw [List.filter_eq_nil_iff]
              intro dd hdd hchk
              obtain ⟨e, he, hne, hoe⟩ := descriptions_from_entries ts names W as oss
                has dd hdd
              have heq : dd.name = some rootName := eq_of_beq hchk
              exact hpa e he ⟨hobj, by rw [hroot]; rfl⟩
                (by rw [hroot, ← hne, heq])
            rw [List.length_cons, hnone]
            exact Nat.le_refl 1

/-- The post-builder pipeline emits at most one `export`ed block, and any
`export`ed block declares an interface named exactly the root name. -/
lemma generateInterfaces_export (ts : TypeStructure) (rootName : String)
    (fuel : Nat) (out : List String)
    (H : ∀ d ∈ ts.types, DescWF d)
    (h : generateInterfaces ts rootName fuel = some out) :
    (out.filter carriesExport).length ≤ 1 ∧
    ∀ s ∈ out, carriesExport s = true →
      ∃ body, s = "export interface " ++ rootName ++ (" \x7b\n" ++ body) := by
  rw [generateInterfaces] at h
  simp only [Option.bind_eq_bind, Option.pure_def] at h
  cases hn : getNames fuel ts rootName with
  | none => rw [hn] at h; exact Option.noConfusion h
  | some names =>
    rw [hn] at h
    rw [Option.some_bind] at h
    cases hdm : getInterfaceDescriptions ts names with
    | none => rw [hdm] at h; exact Option.noConfusion h
    | some descs =>
      rw [hdm] at h
      rw [Option.some_bind, Option.some.injEq] at h
      have Hh : ∀ d ∈ ts.types, isHash d.id = true := fun d hd => (H d hd).1
      have W : ∀ d ∈ ts.types,
          ¬(d.typeObj.isSome = true ∧ d.arrayOfTypes.isSome = true) :=
        fun d hd => (H d hd).2
      obtain ⟨hpw, -⟩ := getNames_inv ts rootName fuel names Hh hn
      rw [getInterfaceDescriptions] at hdm
      cases hmf : mapFields (descriptionOfEntry ts names) names with
      | none => rw [hmf] at hdm; exact Option.noConfusion hdm
      | some os =>
        rw [hmf] at hdm
        rw [Option.map_some', Option.some.injEq] at hdm
        rw [← h, ← hdm]
        constructor
        · have hcount := descriptions_rootName_count ts names rootName W names os
            hmf hpw
          rw [List.filter_map, List.length_map]
          have hc : List.filter (carriesExport ∘ fun d =>
              getInterfaceStringFromDescription d.name d.typeMap
                (d.name == some rootName)) (List.filterMap id os)
              = List.filter (fun dd => dd.name == some rootName)
                  (List.filterMap id os) := by
            apply List.filter_congr
            intro x hx
            show carriesExport (getInterfaceStringFromDescription x.name x.typeMap
              (x.name == some rootName)) = (x.name == some rootName)
            exact carriesExport_render x.name x.typeMap (x.name == some rootName)
          rw [hc]
          exact hcount
        · intro s hs hex
          rcases List.mem_map.mp hs with ⟨dd, hdd, hrender⟩
          rw [← hrender] at hex
          rw [carriesExport_render] at hex
          have hname : dd.name = some rootName := eq_of_beq hex
          rw [← hrender, hex, hname]
          exact render_true_shape rootName dd.typeMap

/-- C1 (corrected): for every accepted input, *at most* one string of the
returned declaration list carries the `export` qualifier, and any exported
string declares an interface named exactly the configured root name.  (The
original "exactly one" fails: when no assigned name equals the root name —
e.g. a root name that is not already PascalCase — no declaration is exported;
see the counterexample.) -/
theorem jsonToTS_export_discipline (json : Json) (userRootName : Option String)
    (out : List String)
    (h : jsonToTS json userRootName = some (Except.ok out)) :
    (out.filter carriesExport).length ≤ 1 ∧
    ∀ s ∈ out, carriesExport s = true →
      ∃ body, s = "export interface " ++ (userRootName.getD "RootObject")
        ++ (" \x7b\n" ++ body) := by
  rw [jsonToTS] at h
  cases hacc : jsonToTSAccepts json with
  | false => simp [hacc, jsonToTSMessage] at h
  | true =>
    rw [hacc] at h
    replace h : (getTypeStructure json).bind (fun ts0 =>
        (generateInterfaces (optimizeTypeStructure ts0)
          (userRootName.getD "RootObject")
          (pipelineFuel (optimizeTypeStructure ts0))).map Except.ok)
        = some (Except.ok out) := h
    cases hb : getTypeStructure json with
    | none => rw [hb] at h; exact Option.noConfusion h
    | some ts0 =>
      rw [hb] at h
      rw [Option.some_bind] at h
      cases hg : generateInterfaces (optimizeTypeStructure ts0)
          (userRootName.getD "RootObject")
          (pipelineFuel (optimizeTypeStructure ts0)) with
      | none => rw [hg] at h; exact Option.noConfusion h
      | some out2 =>
        rw [hg] at h
        rw [Option.map_some', Option.some.injEq, Except.ok.injEq] at h
        rw [← h]
        exact generateInterfaces_export (optimizeTypeStructure ts0)
          (userRootName.getD "RootObject")
          (pipelineFuel (optimizeTypeStructure ts0)) out2
          (optimize_wf ts0 (getTypeStructure_wf json ts0 hb)) hg

theorem jsonToTS_export_discipline_witness :
    ((["export interface RootObject \x7b\n  a: number;\n\x7d"].filter
        carriesExport).length ≤ 1 ∧
    ∀ s ∈ ["export interface RootObject \x7b\n  a: number;\n\x7d"],
      carriesExport s = true →
      ∃ body, s = "export interface " ++ ((none : Option String).getD "RootObject")
        ++ (" \x7b\n" ++ body)) :=
  jsonToTS_export_discipline (Json.obj [("a", Json.num 1)]) none
    ["export interface RootObject \x7b\n  a: number;\n\x7d"] (by rfl)

/-- Counterexample to C1 as stated: the accepted input `{"a": 1}` with
configured root name `a` yields a declaration list in which *no* string
carries the `export` qualifier (the assigned name `A` differs from the
configured root name `a`), so "exactly one export" fails. -/
theorem jsonToTS_zero_exports_cex :
    jsonToTS (Json.obj [("a", Json.num 1)]) (some "a") =
      some (Except.ok ["interface A \x7b\n  a: number;\n\x7d"]) ∧
    (["interface A \x7b\n  a: number;\n\x7d"].filter carriesExport).length = 0 :=
  ⟨by rfl, by decide⟩

end ContentstorageCore
